import Mathlib

/-!
Verification development for the MPC core execution engine:
the circuit registry (`Core`) and the square-pair provider
(`SpProvider` / `SpProviderFromOts`).

The registry is translated from the `Core` class (gate/wire/sharing-id
counters, gate table, transport dispatch, active-gate queue); the provider
from `sp_provider.cpp` (request accounting, OT registration, output
parsing, completion signalling).  Machine integers (`std::size_t` and the
width-`W` unsigned types) are modelled as `Nat`/`Int` with explicit
reduction modulo `2 ^ 64` resp. `2 ^ w` wherever the C++ arithmetic wraps.
The OT layer is an external collaborator; its additive-correlated-OT
contract is modelled from the interface specification.
-/

set_option autoImplicit false

namespace Motion

/-! ### Circuit registry (`Core`) -/

/-- The modulus of `std::size_t` arithmetic (64-bit). -/
def sizeTMod : Nat := 2 ^ 64

/-- State of the `Core` registry.  `α` is the gate payload type
(`GatePtr` contents); a gate slot is `none` once tombstoned.
`myId` models `config_->GetMyId()`; a transport handler is modelled by the
list of messages delivered to it, a message by a `Nat` payload. -/
structure Core (α : Type) where
  myId : Nat
  global_gate_id : Nat := 0
  global_wire_id : Nat := 0
  global_arithmetic_sharing_id : Nat := 0
  global_gmw_sharing_id : Nat := 0
  gates : List (Option α) := []
  input_gates : List α := []
  communication_handlers : List (List Nat) := []
  active_gates : List Nat := []
  evaluated_gates : Nat := 0

/-- A fresh registry (all counters zero, empty tables). -/
def initCore (α : Type) (myId : Nat) : Core α := { myId := myId }

/-- `NextGateId`: return the counter, post-increment (size_t wrap-around). -/
def NextGateId {α : Type} (s : Core α) : Nat × Core α :=
  (s.global_gate_id, { s with global_gate_id := (s.global_gate_id + 1) % sizeTMod })

/-- `NextWireId`: return the counter, post-increment (size_t wrap-around). -/
def NextWireId {α : Type} (s : Core α) : Nat × Core α :=
  (s.global_wire_id, { s with global_wire_id := (s.global_wire_id + 1) % sizeTMod })

/-- `NextArithmeticSharingId(n)`: return the counter, advance it by `n`
(size_t wrap-around). -/
def NextArithmeticSharingId {α : Type} (s : Core α) (n : Nat) : Nat × Core α :=
  (s.global_arithmetic_sharing_id,
   { s with global_arithmetic_sharing_id := (s.global_arithmetic_sharing_id + n) % sizeTMod })

/-- `NextBooleanGMWSharingId(n)`: return the counter, advance it by `n`. -/
def NextBooleanGMWSharingId {α : Type} (s : Core α) (n : Nat) : Nat × Core α :=
  (s.global_gmw_sharing_id,
   { s with global_gmw_sharing_id := (s.global_gmw_sharing_id + n) % sizeTMod })

/-- The values returned by `k` successive calls of `NextGateId`. -/
def gateIdSeq {α : Type} (s : Core α) : Nat → List Nat
  | 0 => []
  | k + 1 => (NextGateId s).1 :: gateIdSeq (NextGateId s).2 k

/-- The start values returned by successive calls of
`NextArithmeticSharingId n₁, n₂, …`. -/
def arithStarts {α : Type} (s : Core α) : List Nat → List Nat
  | [] => []
  | n :: rest => (NextArithmeticSharingId s n).1 :: arithStarts (NextArithmeticSharingId s n).2 rest

/-- Error channel of `Core::Send`: sending to oneself throws
(spec error kind InvalidArgument); `communication_handlers_.at` throws on an
out-of-range party id. -/
inductive SendError
  | invalidArgument
  | outOfRange
deriving DecidableEq

/-- `Core::Send(party_id, message)`: throw on a self-send, otherwise
deliver the message to the handler for `party_id` exactly once. -/
def Send {α : Type} (s : Core α) (party_id message : Nat) : Except SendError (Core α) :=
  if party_id = s.myId then .error .invalidArgument
  else
    match s.communication_handlers[party_id]? with
    | none => .error .outOfRange
    | some h =>
        .ok { s with communication_handlers :=
                s.communication_handlers.set party_id (h ++ [message]) }

/-- The effect of one successful `Send`: exactly one copy of the message
is appended to the handler of `party_id` and nothing else changes. -/
def deliverTo {α : Type} (s : Core α) (party_id message : Nat) : Core α :=
  { s with communication_handlers :=
      s.communication_handlers.set party_id (s.communication_handlers.getD party_id [] ++ [message]) }

/-- `Core::RegisterNextGate`: append a live gate slot. -/
def RegisterNextGate {α : Type} (s : Core α) (g : α) : Core α :=
  { s with gates := s.gates ++ [some g] }

/-- `Core::RegisterNextInputGate`: register plus record in the input index. -/
def RegisterNextInputGate {α : Type} (s : Core α) (g : α) : Core α :=
  { RegisterNextGate s g with input_gates := s.input_gates ++ [g] }

/-- `Core::GetGate(id)`: indexed lookup; `none` models the `at` exception,
`some none` a tombstoned slot, `some (some g)` a live gate. -/
def GetGate {α : Type} (s : Core α) (gate_id : Nat) : Option (Option α) :=
  s.gates[gate_id]?

/-- `Core::UnregisterGate(id)`: tombstone the slot
(out-of-range unregistration, which would throw in the source, is not
exercised by the claims and is a no-op here). -/
def UnregisterGate {α : Type} (s : Core α) (gate_id : Nat) : Core α :=
  { s with gates := s.gates.set gate_id none }

/-- An operation on the gate table. -/
inductive GateOp (α : Type)
  | register (g : α)
  | unregister (i : Nat)
deriving DecidableEq

/-- Run one gate-table operation. -/
def gateStep {α : Type} (s : Core α) : GateOp α → Core α
  | .register g => RegisterNextGate s g
  | .unregister i => UnregisterGate s i

/-- Run a sequence of gate-table operations. -/
def runGateOps {α : Type} (s : Core α) (ops : List (GateOp α)) : Core α :=
  ops.foldl gateStep s

/-! ### Active-gate queue under concurrency

`Core::GetNextGateFromOnlineQueue` reads `active_gates_.size()` and
`active_gates_.front()` *outside* the critical section and takes
`active_queue_mutex_` only around `active_gates_.pop()`;
`Core::AddToActiveQueue` pushes under the mutex.  The fine-grained model
below gives every thread one program counter per source statement; the
`pop()` is the only atomic (locked) step of a consumer. -/

/-- Program counter of one thread operating on the active queue.
A producer performs its entire push under the lock, hence in one step.
A consumer takes three steps: the unlocked `size() == 0` check, the
unlocked `front()` read, and the locked `pop()` that returns the value
read before. -/
inductive ThreadPc
  | prodReady (v : Nat)
  | prodIdle
  | consStart
  | consSizeOk
  | consFront (v : Nat)
  | consDone (r : Int)
deriving DecidableEq

/-- Shared queue plus the program counters of `N` threads. -/
structure QueueSystem (N : Nat) where
  active_gates : List Nat
  threads : Fin N → ThreadPc

/-- One scheduler step: thread `t` executes its next statement.
`tail []` models the undefined behaviour of `pop()` on an empty queue. -/
def queueStep {N : Nat} (s : QueueSystem N) (t : Fin N) : QueueSystem N :=
  match s.threads t with
  | .prodReady v =>
      { active_gates := s.active_gates ++ [v],
        threads := fun u => if u = t then .prodIdle else s.threads u }
  | .consStart =>
      if s.active_gates.length = 0 then
        { s with threads := fun u => if u = t then .consDone (-1) else s.threads u }
      else
        { s with threads := fun u => if u = t then .consSizeOk else s.threads u }
  | .consSizeOk =>
      { s with threads := fun u =>
          if u = t then .consFront (s.active_gates.headD 0) else s.threads u }
  | .consFront v =>
      { active_gates := s.active_gates.tail,
        threads := fun u => if u = t then .consDone (Int.ofNat v) else s.threads u }
  | _ => s

/-- Run a schedule (a list of thread indices) from a start state. -/
def runQueue {N : Nat} (s : QueueSystem N) (sched : List (Fin N)) : QueueSystem N :=
  sched.foldl queueStep s

/-! ### Square-pair provider: request accounting and lifecycle -/

/-- The per-width SP request counts.  The count fields are declared in
`sp_provider.h`, which is not part of the excerpt; modelled from the spec
as plain (unbounded) unsigned counts. -/
structure SpCounts where
  number_of_sps_8 : Nat
  number_of_sps_16 : Nat
  number_of_sps_32 : Nat
  number_of_sps_64 : Nat
  number_of_sps_128 : Nat
deriving DecidableEq

/-- `SpProvider::NeedSps`: `0 <` the sum of the five request counts. -/
def NeedSps (c : SpCounts) : Bool :=
  decide (0 < c.number_of_sps_8 + c.number_of_sps_16 + c.number_of_sps_32 +
            c.number_of_sps_64 + c.number_of_sps_128)

/-- Lifecycle state of the provider, as far as the completion condition is
concerned.  Modelled from the spec: `finished_` starts out `false` at
construction (its initializer lives in `sp_provider.h`, outside the
excerpt); `otsRegistered` abstracts the effect of `RegisterOts`. -/
structure SpState where
  finished : Bool
  otsRegistered : Bool
deriving DecidableEq

/-- The provider state right after the constructor ran. -/
def spInit : SpState := ⟨false, false⟩

/-- The public lifecycle operations of `SpProviderFromOts`
(`RegisterOts` and `ParseOutputs` are private and only run inside them). -/
inductive SpOp
  | preSetup
  | setup
deriving DecidableEq

/-- Effect of one lifecycle operation on the provider state.  Both phases
return immediately when `!NeedSps()`; `Setup` drives the OTs, calls
`ParseOutputs` and then — and only then — sets `finished_` under the
completion mutex and notifies all waiters.  No other member function
assigns `finished_`. -/
def spStep (c : SpCounts) (s : SpState) : SpOp → SpState
  | .preSetup => if NeedSps c then { s with otsRegistered := true } else s
  | .setup => if NeedSps c then { s with finished := true } else s

/-- Run a sequence of lifecycle operations. -/
def spRun (c : SpCounts) (s : SpState) (ops : List SpOp) : SpState :=
  ops.foldl (spStep c) s

/-- Number of `false → true` transitions of `finished_` along a run. -/
def countFinishedTransitions (c : SpCounts) : SpState → List SpOp → Nat
  | _, [] => 0
  | s, op :: rest =>
      (if s.finished = false ∧ (spStep c s op).finished = true then 1 else 0) +
        countFinishedTransitions c (spStep c s op) rest

/-! ### Square-pair provider: bit strings and batching

A width-`W` OT message is a `W`-bit string with little-endian bit order;
`ParseOutputs` reinterprets such a string as the width-`W` unsigned
integer it denotes.  SPs are processed in batches of at most
`kMaxBatchSize` (`B` below), one OT handle per batch; a batch starting at
`sp_id` covers `min B (n - sp_id)` SPs and `batch_size * W` positions,
position `k * W + bit` belonging to SP `sp_id + k` and bit `bit`. -/

/-- Value of the first `w` bits of a bit string, little-endian
(missing bits read as zero; a well-formed message has exactly `w` bits). -/
def interpLE : Nat → List Bool → Int
  | 0, _ => 0
  | _ + 1, [] => 0
  | w + 1, b :: rest => (if b then 1 else 0) + 2 * interpLE w rest

/-- The `w`-bit little-endian bit string of a value. -/
def natToBitsLE (w : Nat) (v : Nat) : List Bool :=
  (List.range w).map (fun i => v.testBit i)

/-- Iterate a per-bit update of one `c` cell over bit positions
`0, …, w-1` (the inner `bit_i` loop of the parse helpers). -/
def foldBits (w : Nat) (step : Int → Int → Int) (x : Int) (ms : Nat → Int) : Int :=
  (List.range w).foldl (fun y bit => step y (ms bit)) x

/-- Overwrite the entry of a `c` vector at index `k`. -/
def updateAt (c : Nat → Int) (k : Nat) (v : Int) : Nat → Int :=
  fun j => if j = k then v else c j

/-- Process one OT batch `outs` against the `c` vector: for every SP `j`
of the batch and every bit position, fold the interpreted output at
position `j * w + bit` into `c (spId + j)` (the two nested loops of
`ParseHelperSend` / `ParseHelperReceive`). -/
def applyBatch (w : Nat) (step : Int → Int → Int) (c : Nat → Int) (spId b : Nat)
    (outs : List (List Bool)) : Nat → Int :=
  (List.range b).foldl
    (fun c j => updateAt c (spId + j)
      (foldBits w step (c (spId + j)) (fun bit => interpLE w (outs.getD (j * w + bit) []))))
    c

/-- Sender-side per-bit update: `c -= 2 * m` in width-`w` arithmetic. -/
def subStep (Mv : Int) : Int → Int → Int := fun x m => (x - 2 * m) % Mv

/-- Receiver-side per-bit update: `c += 2 * m` in width-`w` arithmetic. -/
def addStep (Mv : Int) : Int → Int → Int := fun x m => (x + 2 * m) % Mv

/-- Core of the parse helpers: walk the batches from `spId` to `n`,
consuming one OT handle (its output vector `outs`) from the front of the
handle list per batch.  Returns the updated `c` vector and the handles
left over (the source pops the consumed handles off the per-peer list). -/
def parseHelperCore (w B : Nat) (step : Int → Int → Int) (ots : List (List (List Bool)))
    (c : Nat → Int) (spId n : Nat) : (Nat → Int) × List (List (List Bool)) :=
  if _h : spId < n ∧ 0 < B then
    match ots with
    | [] => (c, [])
    | outs :: rest =>
        parseHelperCore w B step rest
          (applyBatch w step c spId (min B (n - spId)) outs)
          (spId + min B (n - spId)) n
  else (c, ots)
termination_by n - spId
decreasing_by simp_wf; omega

/-- `ParseHelperSend`: fold the sender OT outputs into `c` with `-= 2m`. -/
def ParseHelperSend (Mv : Int) (w B : Nat) (ots : List (List (List Bool)))
    (c : Nat → Int) (n : Nat) : (Nat → Int) × List (List (List Bool)) :=
  parseHelperCore w B (subStep Mv) ots c 0 n

/-- `ParseHelperReceive`: fold the receiver OT outputs into `c` with `+= 2m`. -/
def ParseHelperReceive (Mv : Int) (w B : Nat) (ots : List (List (List Bool)))
    (c : Nat → Int) (n : Nat) : (Nat → Int) × List (List (List Bool)) :=
  parseHelperCore w B (addStep Mv) ots c 0 n

/-- Number of OT batches needed for SPs `spId, …, n-1`. -/
def numBatches (B spId n : Nat) : Nat :=
  if _h : spId < n ∧ 0 < B then numBatches B (spId + min B (n - spId)) n + 1 else 0
termination_by n - spId
decreasing_by simp_wf; omega

/-- One list entry per batch; the entry of the batch starting at `spId`
with size `b` lists `f (spId + j) bit` at position `j * w + bit`
(the emission order of the nested registration loops). -/
def batchedPositions {α : Type} (w B : Nat) (f : Nat → Nat → α) (spId n : Nat) :
    List (List α) :=
  if _h : spId < n ∧ 0 < B then
    ((List.range (min B (n - spId) * w)).map (fun pos => f (spId + pos / w) (pos % w))) ::
      batchedPositions w B f (spId + min B (n - spId)) n
  else []
termination_by n - spId
decreasing_by simp_wf; omega

/-! ### Square-pair provider: OT registration (`RegisterOts`) -/

/-- The chosen sender input at SP `k`, bit `bit`: the `w`-bit string of
`a[k] << bit` (width-`w` arithmetic). -/
def senderInputBits (Mv : Int) (w : Nat) (a : Nat → Int) (k bit : Nat) : List Bool :=
  natToBitsLE w ((a k * 2 ^ bit % Mv).toNat)

/-- The receiver's choice at SP `k`, bit `bit`: bit `bit` of its own `a[k]`. -/
def choiceBit (a : Nat → Int) (k bit : Nat) : Bool :=
  (a k).toNat.testBit bit

/-- One width's worth of SP requests: width `w`, count `n`, and the
randomly sampled `a` vector (`RandomVector<T>` output, one width-`w`
value per SP). -/
structure WidthReq where
  w : Nat
  n : Nat
  a : Nat → Int

/-- A registered sender OT handle: vector length (`bit_size`) and the
chosen messages (`SetInputs`). -/
structure SenderOt where
  bitLength : Nat
  inputs : List (List Bool)

/-- A registered receiver OT handle: vector length and the choice bits
(`SetChoices`), flattened in position order. -/
structure ReceiverOt where
  bitLength : Nat
  choices : List Bool

/-- `RegisterHelperSend` for one width: one sender OT per batch, whose
message at position `k * w + bit` is the bit pattern of `a[sp_id+k] << bit`. -/
def RegisterHelperSend (B : Nat) (r : WidthReq) : List SenderOt :=
  (batchedPositions r.w B (senderInputBits (2 ^ r.w) r.w r.a) 0 r.n).map
    (fun ins => ⟨r.w, ins⟩)

/-- `RegisterHelperReceptor` for one width: one receiver OT per batch,
whose choice at position `k * w + bit` is bit `bit` of `a[sp_id+k]`. -/
def RegisterHelperReceptor (B : Nat) (r : WidthReq) : List ReceiverOt :=
  (batchedPositions r.w B (choiceBit r.a) 0 r.n).map (fun ch => ⟨r.w, ch⟩)

/-- All sender handles a party registers toward one peer: the five widths
in ascending order, each contributing its batches in order. -/
def RegisterOtsSenderFor (B : Nat) (reqs : List WidthReq) : List SenderOt :=
  reqs.flatMap (fun r => RegisterHelperSend B r)

/-- All receiver handles a party registers toward one peer. -/
def RegisterOtsReceiverFor (B : Nat) (reqs : List WidthReq) : List ReceiverOt :=
  reqs.flatMap (fun r => RegisterHelperReceptor B r)

/-- `SpProviderFromOts::RegisterOts` for a party `myId` among `P` parties:
the per-peer handle vectors `ots_sender_` and `ots_receiver_`.  The loop
registers sender OTs toward every peer `i < myId` and receiver OTs toward
every peer `i > myId`. -/
def RegisterOts (P myId B : Nat) (reqs : List WidthReq) :
    (Nat → List SenderOt) × (Nat → List ReceiverOt) :=
  (fun i => if i < P ∧ i < myId then RegisterOtsSenderFor B reqs else [],
   fun i => if i < P ∧ myId < i then RegisterOtsReceiverFor B reqs else [])

/-- The five-width request list of the provider, in the order the source
instantiates the helpers (8, 16, 32, 64, 128). -/
def fiveWidthReqs (c : SpCounts) (a8 a16 a32 a64 a128 : Nat → Int) : List WidthReq :=
  [⟨8, c.number_of_sps_8, a8⟩, ⟨16, c.number_of_sps_16, a16⟩,
   ⟨32, c.number_of_sps_32, a32⟩, ⟨64, c.number_of_sps_64, a64⟩,
   ⟨128, c.number_of_sps_128, a128⟩]

/-! ### Square-pair provider: output parsing and `Setup` dataflow

The five widths use disjoint `(a, c)` vectors, so each width's pipeline
is modelled once, generically in `w`.  The OT layer is out of scope; its
additive-correlated-OT contract (spec interface section) is: at each
position the sender's output is a fresh random mask `m` (a `w`-bit
string) and the receiver's output is `m + correlation` mod `2^w` if its
choice bit is set, else `m`, where the correlation is the sender's chosen
input at that position. -/

/-- One peer's step of `ParseOutputs`: sender parse for a lower peer,
receiver parse for a higher peer, skip oneself. -/
def parsePeerStep (myId : Nat) (Mv : Int) (w B n : Nat)
    (senderOts recvOts : Nat → List (List (List Bool)))
    (c : Nat → Int) (i : Nat) : Nat → Int :=
  if i = myId then c
  else if i < myId then (ParseHelperSend Mv w B (senderOts i) c n).1
  else (ParseHelperReceive Mv w B (recvOts i) c n).1

/-- `ParseOutputs` for one width: fold the per-peer parses over all
parties in index order. -/
def ParseOutputsWidth (P myId : Nat) (Mv : Int) (w B n : Nat)
    (senderOts recvOts : Nat → List (List (List Bool)))
    (c : Nat → Int) : Nat → Int :=
  (List.range P).foldl (parsePeerStep myId Mv w B n senderOts recvOts) c

/-- `GenerateRandomPairs`: `c[k] = a[k] * a[k]` in width-`w` arithmetic. -/
def GenerateRandomPairsC (Mv : Int) (a : Nat → Int) : Nat → Int :=
  fun k => a k * a k % Mv

/-- Sender OT outputs under the AC-OT contract: the masks themselves,
`mask k bit` being the mask at SP `k`, bit `bit` of the session. -/
def senderOutsFromContract (w B n : Nat) (mask : Nat → Nat → Int) :
    List (List (List Bool)) :=
  batchedPositions w B (fun k bit => natToBitsLE w (mask k bit).toNat) 0 n

/-- Receiver OT output value under the AC-OT contract: the mask, plus the
sender's correlation input `aPeer[k] << bit` when bit `bit` of the
receiver's own `aSelf[k]` is chosen. -/
def recvOutVal (Mv : Int) (mask : Nat → Nat → Int) (aSelf aPeer : Nat → Int)
    (k bit : Nat) : Int :=
  if (aSelf k).toNat.testBit bit then (mask k bit + aPeer k * 2 ^ bit % Mv) % Mv
  else mask k bit

/-- Receiver OT outputs under the AC-OT contract, as `w`-bit strings. -/
def recvOutsFromContract (Mv : Int) (w B n : Nat) (mask : Nat → Nat → Int)
    (aSelf aPeer : Nat → Int) : List (List (List Bool)) :=
  batchedPositions w B
    (fun k bit => natToBitsLE w (recvOutVal Mv mask aSelf aPeer k bit).toNat) 0 n

/-- Party `p`'s `c` vector for one width after `Setup`:
start from `a_p * a_p` (`GenerateRandomPairs`), then run `ParseOutputs`
with the OT outputs the contract assigns to each pairwise session.
`mask l h k bit` is the sender mask of the session of the pair `(l, h)`
with `l < h` (sender `h`, receiver `l`) at SP `k`, bit `bit`. -/
def setupPartyC (P w B n : Nat) (a : Nat → Nat → Int)
    (mask : Nat → Nat → Nat → Nat → Int) (p : Nat) : Nat → Int :=
  ParseOutputsWidth P p (2 ^ w) w B n
    (fun i => senderOutsFromContract w B n (mask i p))
    (fun i => recvOutsFromContract (2 ^ w) w B n (mask p i) (a p) (a i))
    (GenerateRandomPairsC (2 ^ w) (a p))

/-! ### Lemmas: provider lifecycle -/

theorem spStep_finished_mono (c : SpCounts) (s : SpState) (op : SpOp)
    (h : s.finished = true) : (spStep c s op).finished = true := by
  cases op <;> simp only [spStep] <;> split <;> simp [h]

theorem spRun_finished_mono (c : SpCounts) (ops : List SpOp) :
    ∀ s : SpState, s.finished = true → (spRun c s ops).finished = true := by
  induction ops with
  | nil => intro s h; exact h
  | cons op rest ih =>
      intro s h
      exact ih (spStep c s op) (spStep_finished_mono c s op h)

theorem spStep_finished_stays_false (c : SpCounts) (s : SpState) (op : SpOp)
    (hc : NeedSps c = false) (h : s.finished = false) :
    (spStep c s op).finished = false := by
  cases op <;> simp [spStep, hc, h]

theorem countFinishedTransitions_of_finished (c : SpCounts) (ops : List SpOp) :
    ∀ s : SpState, s.finished = true → countFinishedTransitions c s ops = 0 := by
  induction ops with
  | nil => intro s _; rfl
  | cons op rest ih =>
      intro s h
      simp only [countFinishedTransitions, h]
      rw [ih (spStep c s op) (spStep_finished_mono c s op h)]
      simp

theorem countFinishedTransitions_of_not_finished (c : SpCounts) (ops : List SpOp) :
    ∀ s : SpState, s.finished = false →
      countFinishedTransitions c s ops =
        if NeedSps c = true ∧ SpOp.setup ∈ ops then 1 else 0 := by
  induction ops with
  | nil => intro s _; simp [countFinishedTransitions]
  | cons op rest ih =>
      intro s h
      cases op with
      | preSetup =>
          have hstep : (spStep c s SpOp.preSetup).finished = false := by
            simp only [spStep]; split <;> simp [h]
          simp only [countFinishedTransitions, hstep, h]
          rw [ih _ hstep]
          simp [List.mem_cons]
      | setup =>
          by_cases hc : NeedSps c = true
          · have hstep : (spStep c s SpOp.setup).finished = true := by
              simp [spStep, hc]
            simp only [countFinishedTransitions, h, hstep]
            rw [countFinishedTransitions_of_finished c rest _ hstep]
            simp [hc, List.mem_cons]
          · have hcf : NeedSps c = false := by
              cases hNS : NeedSps c
              · rfl
              · exact absurd hNS hc
            have hstep : spStep c s SpOp.setup = s := by
              simp [spStep, hcf]
            simp only [countFinishedTransitions, hstep, h]
            rw [ih _ h]
            simp [hcf]

/-! ### Theorems for the claims: provider lifecycle and accounting -/

/-- C9: `need_sps()` returns true exactly when at least one of the five
per-width SP request counts is strictly positive. -/
theorem need_sps_iff_some_count_pos (c : SpCounts) :
    NeedSps c = true ↔
      (0 < c.number_of_sps_8 ∨ 0 < c.number_of_sps_16 ∨ 0 < c.number_of_sps_32 ∨
        0 < c.number_of_sps_64 ∨ 0 < c.number_of_sps_128) := by
  simp only [NeedSps, decide_eq_true_eq]
  omega

/-- C4 counterexample: the completion flag does not transition from false
to true *exactly once over every lifetime*: in a lifetime whose `Setup`
call finds all request counts zero the flag never transitions at all. -/
theorem finished_transition_count_cex :
    countFinishedTransitions ⟨0, 0, 0, 0, 0⟩ spInit [SpOp.setup] = 0 := by
  decide

/-- C4 (amended): the completion flag is monotonic and transitions from
false to true *at most* once; it transitions exactly once precisely in the
lifetimes whose operations include a `Setup` call with `need_sps()` true
(the success path), and no other operation ever sets it. -/
theorem finished_transition_count (c : SpCounts) (ops l₁ l₂ : List SpOp) :
    countFinishedTransitions c spInit ops ≤ 1 ∧
      (countFinishedTransitions c spInit ops = 1 ↔
        (NeedSps c = true ∧ SpOp.setup ∈ ops)) ∧
      ((spRun c spInit l₁).finished = true →
        (spRun c spInit (l₁ ++ l₂)).finished = true) := by
  have hcount := countFinishedTransitions_of_not_finished c ops spInit rfl
  refine ⟨?_, ?_, ?_⟩
  · rw [hcount]; split <;> omega
  · rw [hcount]; split
    · simp_all
    · simp_all
  · intro h
    have : spRun c spInit (l₁ ++ l₂) = spRun c (spRun c spInit l₁) l₂ := by
      simp [spRun, List.foldl_append]
    rw [this]
    exact spRun_finished_mono c l₂ _ h

/-- C4 witness: a lifetime with one successful `Setup` transitions the
flag exactly once, and the flag stays set afterwards. -/
theorem finished_transition_count_witness :
    countFinishedTransitions ⟨1, 0, 0, 0, 0⟩ spInit [SpOp.setup] ≤ 1 ∧
      (countFinishedTransitions ⟨1, 0, 0, 0, 0⟩ spInit [SpOp.setup] = 1 ↔
        (NeedSps ⟨1, 0, 0, 0, 0⟩ = true ∧ SpOp.setup ∈ [SpOp.setup])) ∧
      ((spRun ⟨1, 0, 0, 0, 0⟩ spInit [SpOp.setup]).finished = true →
        (spRun ⟨1, 0, 0, 0, 0⟩ spInit ([SpOp.setup] ++ [SpOp.preSetup])).finished = true) :=
  finished_transition_count ⟨1, 0, 0, 0, 0⟩ [SpOp.setup] [SpOp.setup] [SpOp.preSetup]

/-- C10: when `need_sps()` is false, every lifecycle run leaves the
completion flag false — `Setup` returns before the flag is ever assigned,
so the completion condition never becomes satisfiable and a waiter on it
is never woken. -/
theorem no_sps_never_finished (c : SpCounts) (ops : List SpOp)
    (h : NeedSps c = false) : (spRun c spInit ops).finished = false := by
  suffices hgen : ∀ s : SpState, s.finished = false → (spRun c s ops).finished = false from
    hgen spInit rfl
  induction ops with
  | nil => intro s hs; exact hs
  | cons op rest ih =>
      intro s hs
      exact ih (spStep c s op) (spStep_finished_stays_false c s op h hs)

/-- C10 witness: with all counts zero, running `PreSetup` and `Setup`
leaves the flag false. -/
theorem no_sps_never_finished_witness :
    NeedSps ⟨0, 0, 0, 0, 0⟩ = false ∧
      (spRun ⟨0, 0, 0, 0, 0⟩ spInit [SpOp.preSetup, SpOp.setup]).finished = false :=
  ⟨by decide, no_sps_never_finished ⟨0, 0, 0, 0, 0⟩ [SpOp.preSetup, SpOp.setup] (by decide)⟩

/-! ### Theorems for the claims: registry (`Core`) -/

/-- C5: `Send` to oneself fails with the InvalidArgument error and touches
nothing (no new state is produced, no handler invoked); `Send` to a valid
other party appends the message to exactly that party's handler. -/
theorem send_self_fails_other_delegates (α : Type) (s : Core α) (p message : Nat)
    (hp : p ≠ s.myId) (hlt : p < s.communication_handlers.length) :
    Send s s.myId message = .error .invalidArgument ∧
      Send s p message = .ok (deliverTo s p message) := by
  constructor
  · unfold Send
    rw [if_pos rfl]
  · have hsome : s.communication_handlers[p]? = some (s.communication_handlers.getD p []) := by
      rw [List.getElem?_eq_getElem hlt, List.getD_eq_getElem _ _ hlt]
    unfold Send
    rw [if_neg hp, hsome]
    rfl

/-- C5 witness: with `my_id = 1` and two installed handlers, `send(1, 42)`
fails with InvalidArgument and `send(0, 42)` is delivered to handler 0
exactly once. -/
theorem send_self_fails_other_delegates_witness :
    Send ({ myId := 1, communication_handlers := [[], []] } : Core Unit) 1 42 =
        .error .invalidArgument ∧
      Send ({ myId := 1, communication_handlers := [[], []] } : Core Unit) 0 42 =
        .ok (deliverTo ({ myId := 1, communication_handlers := [[], []] } : Core Unit) 0 42) :=
  send_self_fails_other_delegates Unit
    ({ myId := 1, communication_handlers := [[], []] } : Core Unit) 0 42
    (by decide) (by decide)

/-! Gate-table lemmas -/

theorem gateStep_getElem?_some (α : Type) (s : Core α) (op : GateOp α) (i : Nat)
    (v : Option α) (hop : op ≠ GateOp.unregister i) (h : s.gates[i]? = some v) :
    (gateStep s op).gates[i]? = some v := by
  have hi : i < s.gates.length := (List.getElem?_eq_some.mp h).1
  cases op with
  | register g =>
      show (s.gates ++ [some g])[i]? = some v
      rw [List.getElem?_append_left hi]; exact h
  | unregister j =>
      have hj : j ≠ i := by intro hji; exact hop (by rw [hji])
      show (s.gates.set j none)[i]? = some v
      rw [List.getElem?_set_ne hj]; exact h

theorem runGateOps_getElem?_some (α : Type) (ops : List (GateOp α)) :
    ∀ (s : Core α) (i : Nat) (v : Option α), GateOp.unregister i ∉ ops →
      s.gates[i]? = some v → (runGateOps s ops).gates[i]? = some v := by
  induction ops with
  | nil => intro s i v _ h; exact h
  | cons op rest ih =>
      intro s i v hnot h
      have hop : op ≠ GateOp.unregister i := by
        intro he; exact hnot (by rw [he]; exact List.mem_cons_self _ _)
      have hrest : GateOp.unregister i ∉ rest := by
        intro he; exact hnot (List.mem_cons_of_mem _ he)
      exact ih (gateStep s op) i v hrest (gateStep_getElem?_some α s op i v hop h)

theorem gateStep_tombstone (α : Type) (s : Core α) (op : GateOp α) (i : Nat)
    (h : s.gates[i]? = some none) : (gateStep s op).gates[i]? = some none := by
  have hi : i < s.gates.length := (List.getElem?_eq_some.mp h).1
  cases op with
  | register g =>
      show (s.gates ++ [some g])[i]? = some none
      rw [List.getElem?_append_left hi]; exact h
  | unregister j =>
      show (s.gates.set j none)[i]? = some none
      by_cases hj : j = i
      · subst hj; exact List.getElem?_set_eq_of_lt none hi
      · rw [List.getElem?_set_ne hj]; exact h

theorem runGateOps_tombstone (α : Type) (ops : List (GateOp α)) :
    ∀ (s : Core α) (i : Nat), s.gates[i]? = some none →
      (runGateOps s ops).gates[i]? = some none := by
  induction ops with
  | nil => intro s i h; exact h
  | cons op rest ih =>
      intro s i h
      exact ih (gateStep s op) i (gateStep_tombstone α s op i h)

theorem runGateOps_registers (α : Type) (gs : List α) :
    ∀ s : Core α, (runGateOps s (gs.map GateOp.register)).gates = s.gates ++ gs.map some := by
  induction gs with
  | nil => intro s; exact (List.append_nil s.gates).symm
  | cons g rest ih =>
      intro s
      show (runGateOps (gateStep s (GateOp.register g)) (rest.map GateOp.register)).gates = _
      rw [ih (gateStep s (GateOp.register g))]
      show (s.gates ++ [some g]) ++ rest.map some = _
      rw [List.append_assoc]; rfl

theorem runGateOps_length_le (α : Type) (ops : List (GateOp α)) :
    ∀ s : Core α, s.gates.length ≤ (runGateOps s ops).gates.length := by
  induction ops with
  | nil => intro s; exact le_refl _
  | cons op rest ih =>
      intro s
      refine le_trans ?_ (ih (gateStep s op))
      cases op with
      | register g => simp [gateStep, RegisterNextGate]
      | unregister j => simp [gateStep, UnregisterGate]

/-- C6: starting from the fresh registry, after registering
`g₀, …, g_{k-1}` and then running any further register/unregister
operations, `GetGate i` returns the live gate `gᵢ` as long as slot `i` was
never unregistered; and as soon as the operation sequence contains
`unregister i`, the slot is tombstoned from that point on: it stays
indexable and every later lookup observes the tombstone (the null
handle), never a live gate. -/
theorem gate_registry_tombstone (α : Type) (gs : List α) (tail pre post : List (GateOp α))
    (i : Nat) (g : α) (hg : gs[i]? = some g) :
    (GateOp.unregister i ∉ tail →
        GetGate (runGateOps (initCore α 0) (gs.map GateOp.register ++ tail)) i =
          some (some g)) ∧
      (tail = pre ++ GateOp.unregister i :: post →
        GetGate (runGateOps (initCore α 0) (gs.map GateOp.register ++ tail)) i =
          some none) := by
  have hsplit : runGateOps (initCore α 0) (gs.map GateOp.register ++ tail) =
      runGateOps (runGateOps (initCore α 0) (gs.map GateOp.register)) tail := by
    simp [runGateOps, List.foldl_append]
  have hbase : (runGateOps (initCore α 0) (gs.map GateOp.register)).gates = gs.map some := by
    rw [runGateOps_registers]; rfl
  have hlive : (runGateOps (initCore α 0) (gs.map GateOp.register)).gates[i]? =
      some (some g) := by
    rw [hbase, List.getElem?_map, hg]; rfl
  constructor
  · intro hnot
    rw [hsplit]
    exact runGateOps_getElem?_some α tail _ i (some g) hnot hlive
  · intro htail
    subst htail
    rw [hsplit]
    have hsplit2 : runGateOps (runGateOps (initCore α 0) (gs.map GateOp.register))
        (pre ++ GateOp.unregister i :: post) =
        runGateOps (gateStep (runGateOps (runGateOps (initCore α 0)
          (gs.map GateOp.register)) pre) (GateOp.unregister i)) post := by
      simp [runGateOps, List.foldl_append]
    rw [hsplit2]
    have hi : i < gs.length := by
      have := (List.getElem?_eq_some.mp hg).1
      exact this
    have hipre : i < (runGateOps (runGateOps (initCore α 0)
        (gs.map GateOp.register)) pre).gates.length := by
      refine lt_of_lt_of_le ?_ (runGateOps_length_le α pre _)
      rw [hbase, List.length_map]; exact hi
    have hset : (gateStep (runGateOps (runGateOps (initCore α 0)
        (gs.map GateOp.register)) pre) (GateOp.unregister i)).gates[i]? = some none := by
      show ((runGateOps (runGateOps (initCore α 0)
        (gs.map GateOp.register)) pre).gates.set i none)[i]? = some none
      exact List.getElem?_set_eq_of_lt none hipre
    exact runGateOps_tombstone α post _ i hset

/-- C6 witness: register one gate, look it up, unregister it, and observe
the tombstone afterwards (also after a further registration). -/
theorem gate_registry_tombstone_witness :
    (GateOp.unregister 0 ∉ [GateOp.unregister (α := Nat) 0, GateOp.register 9] →
        GetGate (runGateOps (initCore Nat 0)
          (([7] : List Nat).map GateOp.register ++
            [GateOp.unregister 0, GateOp.register 9])) 0 = some (some 7)) ∧
      ([GateOp.unregister (α := Nat) 0, GateOp.register 9] =
          [] ++ GateOp.unregister 0 :: [GateOp.register 9] →
        GetGate (runGateOps (initCore Nat 0)
          (([7] : List Nat).map GateOp.register ++
            [GateOp.unregister 0, GateOp.register 9])) 0 = some none) :=
  gate_registry_tombstone Nat [7] [GateOp.unregister 0, GateOp.register 9]
    [] [GateOp.register 9] 0 7 (by decide)

/-- C7 counterexample: the sharing-id starts are *not* always strictly
increasing with gaps `nᵢ`: the counter is a 64-bit `size_t`, so with the
legal requests `n₁ = 2^64 - 1, n₂ = 1, n₃ = 1` the three returned starts
are `0, 2^64 - 1, 0` — the third start wraps back below the second. -/
theorem id_allocation_cex :
    (arithStarts (initCore Unit 0) [2 ^ 64 - 1, 1, 1]).getD 1 0 = 2 ^ 64 - 1 ∧
      (arithStarts (initCore Unit 0) [2 ^ 64 - 1, 1, 1]).getD 2 0 = 0 := by
  constructor <;> decide

/-! Allocation lemmas -/

theorem gateIdSeq_eq_map_range (α : Type) :
    ∀ (k s0 : Nat) (s : Core α), s.global_gate_id = s0 → s0 + k ≤ sizeTMod →
      gateIdSeq s k = (List.range k).map (fun i => s0 + i) := by
  intro k
  induction k with
  | zero => intro s0 s _ _; rfl
  | succ k ih =>
      intro s0 s hs hk
      have hhead : (NextGateId s).1 = s0 := hs
      have hrw : (List.range (k + 1)).map (fun i => s0 + i) =
          s0 :: (List.range k).map (fun i => s0 + 1 + i) := by
        rw [List.range_succ_eq_map, List.map_cons, List.map_map]
        refine congrArg₂ _ (by omega) ?_
        refine List.map_congr_left ?_
        intro x _
        show s0 + (x + 1) = s0 + 1 + x
        omega
      show (NextGateId s).1 :: gateIdSeq (NextGateId s).2 k = _
      rw [hrw, hhead]
      cases k with
      | zero => rfl
      | succ k' =>
          have hwrap : (s0 + 1) % sizeTMod = s0 + 1 :=
            Nat.mod_eq_of_lt (by simp only [sizeTMod] at hk ⊢; omega)
          refine congrArg _ ?_
          refine ih (s0 + 1) (NextGateId s).2 ?_ (by omega)
          show (s.global_gate_id + 1) % sizeTMod = s0 + 1
          rw [hs, hwrap]

theorem arithStarts_eq_prefix_sums (α : Type) :
    ∀ (ns : List Nat) (s0 : Nat) (s : Core α), s.global_arithmetic_sharing_id = s0 →
      (∀ m ∈ ns, 1 ≤ m) → s0 + ns.sum ≤ sizeTMod →
      arithStarts s ns = (List.range ns.length).map (fun j => s0 + (ns.take j).sum) := by
  intro ns
  induction ns with
  | nil => intro s0 s _ _ _; rfl
  | cons m rest ih =>
      intro s0 s hs hmem hsum
      have hhead : (NextArithmeticSharingId s m).1 = s0 := hs
      have hrw : (List.range (m :: rest).length).map (fun j => s0 + ((m :: rest).take j).sum) =
          s0 :: (List.range rest.length).map (fun j => s0 + m + (rest.take j).sum) := by
        show (List.range (rest.length + 1)).map _ = _
        rw [List.range_succ_eq_map, List.map_cons, List.map_map]
        refine congrArg₂ _ (by simp) ?_
        refine List.map_congr_left ?_
        intro x _
        show s0 + ((m :: rest).take (x + 1)).sum = s0 + m + (rest.take x).sum
        rw [List.take_succ_cons, List.sum_cons]
        omega
      show (NextArithmeticSharingId s m).1 :: arithStarts (NextArithmeticSharingId s m).2 rest = _
      rw [hrw, hhead]
      cases rest with
      | nil => rfl
      | cons r rs =>
          have hr : 1 ≤ r := hmem r (by simp)
          have hsums : (m :: r :: rs).sum = m + (r + rs.sum) := by simp
          have hwrap : (s0 + m) % sizeTMod = s0 + m := by
            refine Nat.mod_eq_of_lt ?_
            rw [hsums] at hsum
            simp only [sizeTMod] at hsum ⊢
            omega
          refine congrArg _ ?_
          refine ih (s0 + m) (NextArithmeticSharingId s m).2 ?_
            (fun x hx => hmem x (List.mem_cons_of_mem _ hx)) ?_
          · show (s.global_arithmetic_sharing_id + m) % sizeTMod = s0 + m
            rw [hs, hwrap]
          · rw [hsums] at hsum; simp only [List.sum_cons]; omega

theorem getD_map_range (f : Nat → Nat) (L j : Nat) (h : j < L) :
    ((List.range L).map f).getD j 0 = f j := by
  rw [List.getD_eq_getElem _ _ (by simpa using h), List.getElem_map, List.getElem_range]

/-- C7 (amended): gate-id allocation is a post-increment from zero, so `k`
calls return `0, 1, …, k-1` (for any `k` up to the `size_t` modulus); and
the sharing-id starts are strictly increasing with consecutive gaps
exactly `nᵢ` as long as the running total of requests does not overflow
the 64-bit counter. -/
theorem id_allocation (α : Type) (k : Nat) (ns : List Nat) (j : Nat)
    (hk : k ≤ sizeTMod) (hns : ∀ m ∈ ns, 1 ≤ m) (hsum : ns.sum ≤ sizeTMod)
    (hj : j + 1 < ns.length) :
    gateIdSeq (initCore α 0) k = List.range k ∧
      (arithStarts (initCore α 0) ns).getD j 0 <
        (arithStarts (initCore α 0) ns).getD (j + 1) 0 ∧
      (arithStarts (initCore α 0) ns).getD (j + 1) 0 =
        (arithStarts (initCore α 0) ns).getD j 0 + ns.getD j 0 := by
  have hgate : gateIdSeq (initCore α 0) k = List.range k := by
    rw [gateIdSeq_eq_map_range α k 0 (initCore α 0) rfl (by omega)]
    simp
  have hstarts := arithStarts_eq_prefix_sums α ns 0 (initCore α 0) rfl hns (by omega)
  have hjlen : j < ns.length := by omega
  have htake : (ns.take (j + 1)).sum = (ns.take j).sum + ns.getD j 0 := by
    rw [List.sum_take_succ ns j hjlen]
    refine congrArg _ ?_
    rw [List.getD_eq_getElem _ _ hjlen]
  have hpos : 1 ≤ ns.getD j 0 := by
    refine hns _ ?_
    rw [List.getD_eq_getElem _ _ hjlen]
    exact List.getElem_mem hjlen
  rw [hstarts, getD_map_range _ _ _ hjlen, getD_map_range _ _ _ hj]
  refine ⟨hgate, ?_, ?_⟩ <;> omega

/-- C7 witness: three gate ids come out as `0,1,2`; sharing requests
`4, 1, 3` produce starts `0, 4, 5` — start 1 and start 2 differ by
exactly the second request, `1`. -/
theorem id_allocation_witness :
    gateIdSeq (initCore Unit 0) 3 = List.range 3 ∧
      (arithStarts (initCore Unit 0) [4, 1, 3]).getD 1 0 <
        (arithStarts (initCore Unit 0) [4, 1, 3]).getD 2 0 ∧
      (arithStarts (initCore Unit 0) [4, 1, 3]).getD 2 0 =
        (arithStarts (initCore Unit 0) [4, 1, 3]).getD 1 0 + [4, 1, 3].getD 1 0 :=
  id_allocation Unit 3 [4, 1, 3] 1 (by decide) (by decide) (by decide) (by decide)

/-- C8: the reference `GetNextGateFromOnlineQueue` reads `size()` and
`front()` outside the critical section; under the interleaving in which
two consumers both pass the size check and both read the front before
either pops, gate id 5 is returned twice (and the second `pop()` runs on
an already-empty queue, which is undefined behaviour in the source). -/
theorem pop_race_duplicates_gate :
    (runQueue ⟨[5], fun _ => ThreadPc.consStart⟩
        [(0 : Fin 2), 0, 1, 1, 0, 1]).threads 0 = ThreadPc.consDone 5 ∧
      (runQueue ⟨[5], fun _ => ThreadPc.consStart⟩
        [(0 : Fin 2), 0, 1, 1, 0, 1]).threads 1 = ThreadPc.consDone 5 ∧
      (runQueue ⟨[5], fun _ => ThreadPc.consStart⟩
        [(0 : Fin 2), 0, 1, 1, 0, 1]).active_gates = [] := by
  refine ⟨?_, ?_, ?_⟩ <;> decide

/-! ### Lemmas: bit strings, per-bit folds, batches -/

theorem interpLE_natToBitsLE : ∀ (w v : Nat), v < 2 ^ w →
    interpLE w (natToBitsLE w v) = (v : Int) := by
  intro w
  induction w with
  | zero =>
      intro v hv
      interval_cases v
      rfl
  | succ w ih =>
      intro v hv
      have hbits : natToBitsLE (w + 1) v = v.testBit 0 :: natToBitsLE w (v / 2) := by
        unfold natToBitsLE
        rw [List.range_succ_eq_map, List.map_cons, List.map_map]
        refine congrArg _ ?_
        refine List.map_congr_left ?_
        intro x _
        show v.testBit (x + 1) = (v / 2).testBit x
        rw [Nat.testBit_succ]
      rw [hbits]
      show (if v.testBit 0 then (1 : Int) else 0) + 2 * interpLE w (natToBitsLE w (v / 2)) = v
      have hdiv : v / 2 < 2 ^ w := by
        have h2 : 2 ^ (w + 1) = 2 ^ w * 2 := by rw [Nat.pow_succ]
        omega
      rw [ih (v / 2) hdiv]
      have hmod : v.testBit 0 = decide (v % 2 = 1) := Nat.testBit_zero v
      have hv : (v : Int) = 2 * ((v / 2 : Nat) : Int) + ((v % 2 : Nat) : Int) := by
        have h3 : 2 * (v / 2) + v % 2 = v := by omega
        exact_mod_cast (congrArg (Nat.cast : Nat → Int) h3).symm
      rw [hmod, hv]
      rcases Nat.mod_two_eq_zero_or_one v with h2 | h2
      · rw [h2]; simp
      · rw [h2]; simp; ring

theorem foldBits_succ (w : Nat) (step : Int → Int → Int) (x : Int) (ms : Nat → Int) :
    foldBits (w + 1) step x ms = step (foldBits w step x ms) (ms w) := by
  unfold foldBits
  rw [List.range_succ, List.foldl_append]
  rfl

theorem foldBits_congr (step : Int → Int → Int) (x : Int) :
    ∀ (w : Nat) (ms₁ ms₂ : Nat → Int), (∀ bit < w, ms₁ bit = ms₂ bit) →
      foldBits w step x ms₁ = foldBits w step x ms₂ := by
  intro w
  induction w with
  | zero => intro ms₁ ms₂ _; rfl
  | succ w ih =>
      intro ms₁ ms₂ h
      rw [foldBits_succ, foldBits_succ, ih ms₁ ms₂ (fun bit hb => h bit (by omega)),
        h w (by omega)]

theorem emod_self_modEq (x Mv : Int) : x % Mv ≡ x [ZMOD Mv] :=
  Int.emod_emod_of_dvd x dvd_rfl

theorem foldBits_sub_modEq (Mv x : Int) (ms : Nat → Int) :
    ∀ w : Nat, foldBits w (subStep Mv) x ms ≡
      x - 2 * ∑ bit ∈ Finset.range w, ms bit [ZMOD Mv] := by
  intro w
  induction w with
  | zero => simp [foldBits]
  | succ w ih =>
      rw [foldBits_succ]
      show (foldBits w (subStep Mv) x ms - 2 * ms w) % Mv ≡ _ [ZMOD Mv]
      calc (foldBits w (subStep Mv) x ms - 2 * ms w) % Mv
          ≡ foldBits w (subStep Mv) x ms - 2 * ms w [ZMOD Mv] := emod_self_modEq _ _
        _ ≡ (x - 2 * ∑ bit ∈ Finset.range w, ms bit) - 2 * ms w [ZMOD Mv] :=
            ih.sub_right _
        _ = x - 2 * ∑ bit ∈ Finset.range (w + 1), ms bit := by
            rw [Finset.sum_range_succ]; ring

theorem foldBits_add_modEq (Mv x : Int) (ms : Nat → Int) :
    ∀ w : Nat, foldBits w (addStep Mv) x ms ≡
      x + 2 * ∑ bit ∈ Finset.range w, ms bit [ZMOD Mv] := by
  intro w
  induction w with
  | zero => simp [foldBits]
  | succ w ih =>
      rw [foldBits_succ]
      show (foldBits w (addStep Mv) x ms + 2 * ms w) % Mv ≡ _ [ZMOD Mv]
      calc (foldBits w (addStep Mv) x ms + 2 * ms w) % Mv
          ≡ foldBits w (addStep Mv) x ms + 2 * ms w [ZMOD Mv] := emod_self_modEq _ _
        _ ≡ (x + 2 * ∑ bit ∈ Finset.range w, ms bit) + 2 * ms w [ZMOD Mv] :=
            ih.add_right _
        _ = x + 2 * ∑ bit ∈ Finset.range (w + 1), ms bit := by
            rw [Finset.sum_range_succ]; ring

theorem updateAt_self (c : Nat → Int) (k : Nat) (v : Int) : updateAt c k v k = v := by
  simp [updateAt]

theorem updateAt_ne (c : Nat → Int) (k : Nat) (v : Int) (j : Nat) (h : j ≠ k) :
    updateAt c k v j = c j := by
  simp [updateAt, h]

theorem applyBatch_succ (w : Nat) (step : Int → Int → Int) (c : Nat → Int) (spId b : Nat)
    (outs : List (List Bool)) :
    applyBatch w step c spId (b + 1) outs =
      updateAt (applyBatch w step c spId b outs) (spId + b)
        (foldBits w step (applyBatch w step c spId b outs (spId + b))
          (fun bit => interpLE w (outs.getD (b * w + bit) []))) := by
  unfold applyBatch
  rw [List.range_succ, List.foldl_append]
  rfl

theorem applyBatch_frame (w : Nat) (step : Int → Int → Int) (c : Nat → Int) (spId : Nat)
    (outs : List (List Bool)) :
    ∀ (b k : Nat), (k < spId ∨ spId + b ≤ k) → applyBatch w step c spId b outs k = c k := by
  intro b
  induction b with
  | zero => intro k _; rfl
  | succ b ih =>
      intro k hk
      rw [applyBatch_succ, updateAt_ne _ _ _ _ (by omega)]
      exact ih k (by omega)

theorem applyBatch_apply (w : Nat) (step : Int → Int → Int) (c : Nat → Int) (spId : Nat)
    (outs : List (List Bool)) :
    ∀ (b j : Nat), j < b → applyBatch w step c spId b outs (spId + j) =
      foldBits w step (c (spId + j)) (fun bit => interpLE w (outs.getD (j * w + bit) [])) := by
  intro b
  induction b with
  | zero => intro j hj; omega
  | succ b ih =>
      intro j hj
      rw [applyBatch_succ]
      by_cases hjb : j = b
      · subst hjb
        rw [updateAt_self,
          applyBatch_frame w step c spId outs j (spId + j) (by omega)]
      · rw [updateAt_ne _ _ _ _ (by omega)]
        exact ih j (by omega)

theorem parseHelperCore_fst_frame (w B : Nat) (step : Int → Int → Int) :
    ∀ (r spId n : Nat) (ots : List (List (List Bool))) (c : Nat → Int) (k : Nat),
      n - spId ≤ r → (k < spId ∨ n ≤ k) →
      (parseHelperCore w B step ots c spId n).1 k = c k := by
  intro r
  induction r with
  | zero =>
      intro spId n ots c k hr _
      rw [parseHelperCore.eq_def, dif_neg (by omega)]
  | succ r ih =>
      intro spId n ots c k hr hk
      by_cases hcond : spId < n ∧ 0 < B
      · rw [parseHelperCore.eq_def, dif_pos hcond]
        cases ots with
        | nil => rfl
        | cons outs rest =>
            show (parseHelperCore w B step rest
              (applyBatch w step c spId (min B (n - spId)) outs)
              (spId + min B (n - spId)) n).1 k = c k
            rw [ih (spId + min B (n - spId)) n rest _ k (by omega) (by omega)]
            exact applyBatch_frame w step c spId outs (min B (n - spId)) k (by omega)
      · rw [parseHelperCore.eq_def, dif_neg hcond]

theorem parseHelperCore_fst_apply (w B : Nat) (step : Int → Int → Int) :
    ∀ (r spId n : Nat) (ots : List (List (List Bool))) (c : Nat → Int) (k : Nat),
      n - spId ≤ r → 0 < B → numBatches B spId n ≤ ots.length →
      spId ≤ k → k < n →
      (parseHelperCore w B step ots c spId n).1 k =
        foldBits w step (c k)
          (fun bit => interpLE w
            ((ots.getD ((k - spId) / B) []).getD (((k - spId) % B) * w + bit) [])) := by
  intro r
  induction r with
  | zero => intro spId n ots c k hr _ _ hsk hkn; omega
  | succ r ih =>
      intro spId n ots c k hr hB hlen hsk hkn
      have hcond : spId < n ∧ 0 < B := ⟨by omega, hB⟩
      rw [numBatches, dif_pos hcond] at hlen
      rw [parseHelperCore.eq_def, dif_pos hcond]
      cases ots with
      | nil => simp at hlen
      | cons outs rest =>
          rw [List.length_cons] at hlen
          have hb1 : 1 ≤ min B (n - spId) := by omega
          by_cases hk2 : k < spId + min B (n - spId)
          · show (parseHelperCore w B step rest
              (applyBatch w step c spId (min B (n - spId)) outs)
              (spId + min B (n - spId)) n).1 k = _
            rw [parseHelperCore_fst_frame w B step (n - (spId + min B (n - spId)))
              (spId + min B (n - spId)) n rest _ k (by omega) (by omega)]
            have hkeq : spId + (k - spId) = k := by omega
            have happ := applyBatch_apply w step c spId outs (min B (n - spId))
              (k - spId) (by omega)
            rw [hkeq] at happ
            rw [happ]
            have hdiv : (k - spId) / B = 0 := Nat.div_eq_of_lt (by omega)
            have hmod : (k - spId) % B = k - spId := Nat.mod_eq_of_lt (by omega)
            simp only [hdiv, hmod, List.getD_cons_zero]
          · have hbB : min B (n - spId) = B := by omega
            have ihk := ih (spId + min B (n - spId)) n rest
              (applyBatch w step c spId (min B (n - spId)) outs) k
              (by omega) hB (by omega) (by omega) hkn
            show (parseHelperCore w B step rest
              (applyBatch w step c spId (min B (n - spId)) outs)
              (spId + min B (n - spId)) n).1 k = _
            rw [ihk,
              applyBatch_frame w step c spId outs (min B (n - spId)) k (by omega)]
            have hBk : B ≤ k - spId := by omega
            have hdiv : (k - spId) / B = (k - spId - B) / B + 1 :=
              Nat.div_eq_sub_div hB hBk
            have hmod : (k - spId) % B = (k - spId - B) % B := Nat.mod_eq_sub_mod hBk
            have hsub : k - (spId + min B (n - spId)) = k - spId - B := by omega
            simp only [hsub, hdiv, hmod, List.getD_cons_succ]

theorem getD_map_range_any {α : Type} (g : Nat → α) (m i : Nat) (d : α) (h : i < m) :
    ((List.range m).map g).getD i d = g i := by
  rw [List.getD_eq_getElem _ _ (by simpa using h), List.getElem_map, List.getElem_range]

theorem batchedPositions_length {α : Type} (w B : Nat) (f : Nat → Nat → α) :
    ∀ (r spId n : Nat), n - spId ≤ r →
      (batchedPositions w B f spId n).length = numBatches B spId n := by
  intro r
  induction r with
  | zero =>
      intro spId n hr
      rw [batchedPositions, numBatches, dif_neg (by omega), dif_neg (by omega)]
      rfl
  | succ r ih =>
      intro spId n hr
      by_cases hcond : spId < n ∧ 0 < B
      · rw [batchedPositions, numBatches, dif_pos hcond, dif_pos hcond,
          List.length_cons, ih (spId + min B (n - spId)) n (by omega)]
      · rw [batchedPositions, numBatches, dif_neg hcond, dif_neg hcond]
        rfl

theorem batchedPositions_get {α : Type} (w B : Nat) (f : Nat → Nat → α) :
    ∀ (r spId n k bit : Nat) (d : α),
      n - spId ≤ r → 0 < B → spId ≤ k → k < n → bit < w →
      ((batchedPositions w B f spId n).getD ((k - spId) / B) []).getD
        (((k - spId) % B) * w + bit) d = f k bit := by
  intro r
  induction r with
  | zero => intro spId n k bit d hr _ hsk hkn _; omega
  | succ r ih =>
      intro spId n k bit d hr hB hsk hkn hbw
      have hw : 0 < w := by omega
      have hcond : spId < n ∧ 0 < B := ⟨by omega, hB⟩
      rw [batchedPositions, dif_pos hcond]
      by_cases hk2 : k < spId + min B (n - spId)
      · have hdiv : (k - spId) / B = 0 := Nat.div_eq_of_lt (by omega)
        have hmod : (k - spId) % B = k - spId := Nat.mod_eq_of_lt (by omega)
        rw [hdiv, hmod, List.getD_cons_zero]
        have hlt : (k - spId) * w + bit < min B (n - spId) * w := by
          calc (k - spId) * w + bit < (k - spId) * w + w := by omega
            _ = ((k - spId) + 1) * w := by ring
            _ ≤ min B (n - spId) * w := Nat.mul_le_mul_right w (by omega)
        rw [getD_map_range_any _ _ _ _ hlt]
        have harith : (k - spId) * w + bit = bit + w * (k - spId) := by ring
        rw [harith, Nat.add_mul_div_left _ _ hw, Nat.add_mul_mod_self_left,
          Nat.div_eq_of_lt hbw, Nat.mod_eq_of_lt hbw]
        refine congrArg₂ _ (by omega) rfl
      · have hbB : min B (n - spId) = B := by omega
        have hBk : B ≤ k - spId := by omega
        have hdiv : (k - spId) / B = (k - spId - B) / B + 1 :=
          Nat.div_eq_sub_div hB hBk
        have hmod : (k - spId) % B = (k - spId - B) % B := Nat.mod_eq_sub_mod hBk
        have ihk := ih (spId + min B (n - spId)) n k bit d (by omega) hB (by omega) hkn hbw
        have hsub : k - (spId + min B (n - spId)) = k - spId - B := by omega
        rw [hsub, hbB] at ihk
        rw [hdiv, hmod, List.getD_cons_succ, hbB]
        exact ihk

theorem batchedPositions_ne_nil {α : Type} (w B : Nat) (f : Nat → Nat → α) (n : Nat)
    (hB : 0 < B) (hn : 0 < n) : batchedPositions w B f 0 n ≠ [] := by
  rw [batchedPositions, dif_pos ⟨hn, hB⟩]
  exact List.cons_ne_nil _ _

theorem flatMap_ne_nil_of_mem {α β : Type} (l : List α) (f : α → List β) (x : α)
    (hx : x ∈ l) (hfx : f x ≠ []) : l.flatMap f ≠ [] := by
  intro h
  rw [List.flatMap_eq_nil_iff] at h
  exact hfx (h x hx)

/-! ### Theorems for the claims: OT registration and output parsing -/

/-- C3: in `ParseOutputs`, the OT output at position `k·W + bit` of a
batch has its first `W` bits read as a little-endian width-`W` unsigned
integer `m`, and the cell `c_W[sp_id + k]` is folded with
`(c − 2·m) mod 2^W` per bit on the sender side and `(c + 2·m) mod 2^W`
per bit on the receiver side; per peer `i`, the sender parse runs when
`i < my_id` and the receiver parse when `i > my_id`. -/
theorem parse_outputs_updates (Mv : Int) (w B n k myId i : Nat)
    (ots : List (List (List Bool)))
    (sOts rOts : Nat → List (List (List Bool))) (c : Nat → Int)
    (hB : 0 < B) (hlen : numBatches B 0 n ≤ ots.length) (hk : k < n) :
    (ParseHelperSend Mv w B ots c n).1 k =
        foldBits w (subStep Mv) (c k)
          (fun bit => interpLE w ((ots.getD (k / B) []).getD ((k % B) * w + bit) [])) ∧
      (ParseHelperReceive Mv w B ots c n).1 k =
        foldBits w (addStep Mv) (c k)
          (fun bit => interpLE w ((ots.getD (k / B) []).getD ((k % B) * w + bit) [])) ∧
      (i < myId →
        parsePeerStep myId Mv w B n sOts rOts c i = (ParseHelperSend Mv w B (sOts i) c n).1) ∧
      (myId < i →
        parsePeerStep myId Mv w B n sOts rOts c i =
          (ParseHelperReceive Mv w B (rOts i) c n).1) := by
  refine ⟨?_, ?_, ?_, ?_⟩
  · have h := parseHelperCore_fst_apply w B (subStep Mv) n 0 n ots c k
      (by omega) hB hlen (by omega) hk
    rw [Nat.sub_zero] at h
    exact h
  · have h := parseHelperCore_fst_apply w B (addStep Mv) n 0 n ots c k
      (by omega) hB hlen (by omega) hk
    rw [Nat.sub_zero] at h
    exact h
  · intro hlt
    unfold parsePeerStep
    rw [if_neg (by omega), if_pos hlt]
  · intro hgt
    unfold parsePeerStep
    rw [if_neg (by omega), if_neg (by omega)]

/-- C3 witness: one width-8 SP in one batch of one OT with all-zero
output strings, for a two-party run. -/
theorem parse_outputs_updates_witness :
    (ParseHelperSend 256 8 1 [List.replicate 8 (List.replicate 8 false)]
          (fun _ => 0) 1).1 0 =
        foldBits 8 (subStep 256) ((fun _ => (0 : Int)) 0)
          (fun bit => interpLE 8
            (([List.replicate 8 (List.replicate 8 false)].getD (0 / 1) []).getD
              ((0 % 1) * 8 + bit) [])) ∧
      (ParseHelperReceive 256 8 1 [List.replicate 8 (List.replicate 8 false)]
          (fun _ => 0) 1).1 0 =
        foldBits 8 (addStep 256) ((fun _ => (0 : Int)) 0)
          (fun bit => interpLE 8
            (([List.replicate 8 (List.replicate 8 false)].getD (0 / 1) []).getD
              ((0 % 1) * 8 + bit) [])) ∧
      (0 < 1 →
        parsePeerStep 1 256 8 1 1 (fun _ => [List.replicate 8 (List.replicate 8 false)])
            (fun _ => [List.replicate 8 (List.replicate 8 false)]) (fun _ => 0) 0 =
          (ParseHelperSend 256 8 1 [List.replicate 8 (List.replicate 8 false)]
            (fun _ => 0) 1).1) ∧
      (1 < 0 →
        parsePeerStep 1 256 8 1 1 (fun _ => [List.replicate 8 (List.replicate 8 false)])
            (fun _ => [List.replicate 8 (List.replicate 8 false)]) (fun _ => 0) 0 =
          (ParseHelperReceive 256 8 1 [List.replicate 8 (List.replicate 8 false)]
            (fun _ => 0) 1).1) :=
  parse_outputs_updates 256 8 1 1 0 1 0 [List.replicate 8 (List.replicate 8 false)]
    (fun _ => [List.replicate 8 (List.replicate 8 false)])
    (fun _ => [List.replicate 8 (List.replicate 8 false)]) (fun _ => 0)
    (by decide) (by simp [numBatches]) (by decide)

/-- C2 counterexample: with two parties, one width-8 SP requested and
batch bound 1, party 0 — the lower id of the pair (0, 1) — registers *no*
sender OT handle toward peer 1 but does register a receiver handle: the
lower-id party sits on the receiver side, contradicting the claim. -/
theorem register_ots_roles_cex :
    (RegisterOts 2 0 1 (fiveWidthReqs ⟨1, 0, 0, 0, 0⟩
        (fun _ => 0) (fun _ => 0) (fun _ => 0) (fun _ => 0) (fun _ => 0))).1 1 = [] ∧
      (RegisterOts 2 0 1 (fiveWidthReqs ⟨1, 0, 0, 0, 0⟩
        (fun _ => 0) (fun _ => 0) (fun _ => 0) (fun _ => 0) (fun _ => 0))).2 1 ≠ [] := by
  constructor
  · show (if (1 : Nat) < 2 ∧ (1 : Nat) < 0 then
        RegisterOtsSenderFor 1 (fiveWidthReqs ⟨1, 0, 0, 0, 0⟩
          (fun _ => 0) (fun _ => 0) (fun _ => 0) (fun _ => 0) (fun _ => 0)) else []) = []
    rw [if_neg (by omega)]
  · show (if (1 : Nat) < 2 ∧ (0 : Nat) < 1 then
        RegisterOtsReceiverFor 1 (fiveWidthReqs ⟨1, 0, 0, 0, 0⟩
          (fun _ => 0) (fun _ => 0) (fun _ => 0) (fun _ => 0) (fun _ => 0)) else []) ≠ []
    rw [if_pos (by omega)]
    refine flatMap_ne_nil_of_mem _ _ ⟨8, 1, fun _ => 0⟩ (by simp [fiveWidthReqs]) ?_
    unfold RegisterHelperReceptor
    intro hmap
    rw [List.map_eq_nil_iff] at hmap
    exact batchedPositions_ne_nil 8 1 _ 1 (by omega) (by omega) hmap

/-- C2 (amended): the roles are the opposite of the claim: for every
ordered pair (i, j) with i < j, the *higher*-id party j registers the
sender OT handles of the pair and the *lower*-id party i registers the
receiver handles.  Equivalently, in each party's per-peer handle lists a
peer with smaller id is served only by sender handles and a peer with
larger id only by receiver handles. -/
theorem register_ots_roles (P myId B i : Nat) (reqs : List WidthReq)
    (hiP : i < P) (_hne : i ≠ myId) (hB : 0 < B) :
    (myId < i → (RegisterOts P myId B reqs).1 i = []) ∧
      (i < myId → (RegisterOts P myId B reqs).2 i = []) ∧
      (i < myId → (RegisterOts P myId B reqs).1 i = RegisterOtsSenderFor B reqs) ∧
      (myId < i → (RegisterOts P myId B reqs).2 i = RegisterOtsReceiverFor B reqs) ∧
      ((∃ r ∈ reqs, 0 < r.n) → i < myId → (RegisterOts P myId B reqs).1 i ≠ []) ∧
      ((∃ r ∈ reqs, 0 < r.n) → myId < i → (RegisterOts P myId B reqs).2 i ≠ []) := by
  have hsender : ∀ r : WidthReq, 0 < r.n → RegisterHelperSend B r ≠ [] := by
    intro r hr hmap
    unfold RegisterHelperSend at hmap
    rw [List.map_eq_nil_iff] at hmap
    exact batchedPositions_ne_nil r.w B _ r.n hB hr hmap
  have hrecv : ∀ r : WidthReq, 0 < r.n → RegisterHelperReceptor B r ≠ [] := by
    intro r hr hmap
    unfold RegisterHelperReceptor at hmap
    rw [List.map_eq_nil_iff] at hmap
    exact batchedPositions_ne_nil r.w B _ r.n hB hr hmap
  refine ⟨?_, ?_, ?_, ?_, ?_, ?_⟩
  · intro hgt
    show (if i < P ∧ i < myId then _ else []) = []
    rw [if_neg (by omega)]
  · intro hlt
    show (if i < P ∧ myId < i then _ else []) = []
    rw [if_neg (by omega)]
  · intro hlt
    show (if i < P ∧ i < myId then RegisterOtsSenderFor B reqs else []) = _
    rw [if_pos ⟨hiP, hlt⟩]
  · intro hgt
    show (if i < P ∧ myId < i then RegisterOtsReceiverFor B reqs else []) = _
    rw [if_pos ⟨hiP, hgt⟩]
  · rintro ⟨r, hrmem, hrn⟩ hlt
    show (if i < P ∧ i < myId then RegisterOtsSenderFor B reqs else []) ≠ []
    rw [if_pos ⟨hiP, hlt⟩]
    exact flatMap_ne_nil_of_mem reqs _ r hrmem (hsender r hrn)
  · rintro ⟨r, hrmem, hrn⟩ hgt
    show (if i < P ∧ myId < i then RegisterOtsReceiverFor B reqs else []) ≠ []
    rw [if_pos ⟨hiP, hgt⟩]
    exact flatMap_ne_nil_of_mem reqs _ r hrmem (hrecv r hrn)

/-! ### Lemmas: modular sums and pair rearrangements (toward C1) -/

theorem sum_int_modEq (Mv : Int) (s : Finset Nat) (f g : Nat → Int)
    (h : ∀ x ∈ s, f x ≡ g x [ZMOD Mv]) :
    (∑ x ∈ s, f x) ≡ ∑ x ∈ s, g x [ZMOD Mv] := by
  induction s using Finset.induction_on with
  | empty => simp
  | insert hnot ih =>
      rename_i x s
      rw [Finset.sum_insert hnot, Finset.sum_insert hnot]
      exact (h x (Finset.mem_insert_self x s)).add
        (ih (fun y hy => h y (Finset.mem_insert_of_mem hy)))

theorem foldl_peers_modEq (Mv : Int) (k : Nat) (δ : Nat → Int)
    (F : (Nat → Int) → Nat → (Nat → Int)) :
    ∀ (l : List Nat) (c : Nat → Int),
      (∀ (c' : Nat → Int) (i : Nat), i ∈ l → F c' i k ≡ c' k + δ i [ZMOD Mv]) →
      (l.foldl F c) k ≡ c k + (l.map δ).sum [ZMOD Mv] := by
  intro l
  induction l with
  | nil => intro c _; simp
  | cons i rest ih =>
      intro c hstep
      show (rest.foldl F (F c i)) k ≡ _ [ZMOD Mv]
      have h1 := ih (F c i) (fun c' j hj => hstep c' j (List.mem_cons_of_mem i hj))
      have h2 : F c i k + (rest.map δ).sum ≡ (c k + δ i) + (rest.map δ).sum [ZMOD Mv] :=
        (hstep c i (List.mem_cons_self i rest)).add_right _
      refine (h1.trans h2).trans ?_
      rw [List.map_cons, List.sum_cons]
      ring_nf
      exact Int.ModEq.refl _

theorem list_map_range_sum (δ : Nat → Int) :
    ∀ P : Nat, ((List.range P).map δ).sum = ∑ i ∈ Finset.range P, δ i := by
  intro P
  induction P with
  | zero => simp
  | succ P ih =>
      rw [List.range_succ, List.map_append, List.sum_append, ih,
        Finset.sum_range_succ]
      simp

theorem interpLE_toNat_int (w : Nat) (v : Int) (h0 : 0 ≤ v) (h1 : v < 2 ^ w) :
    interpLE w (natToBitsLE w v.toNat) = v := by
  have hcast : ((2 ^ w : Nat) : Int) = (2 : Int) ^ w := by push_cast; ring
  have hlt : v.toNat < 2 ^ w := by omega
  rw [interpLE_natToBitsLE w v.toNat hlt, Int.toNat_of_nonneg h0]

theorem recvOutVal_nonneg_lt (Mv : Int) (mask : Nat → Nat → Int)
    (aSelf aPeer : Nat → Int) (k bit : Nat) (hM : 0 < Mv)
    (hm0 : 0 ≤ mask k bit) (hm1 : mask k bit < Mv) :
    0 ≤ recvOutVal Mv mask aSelf aPeer k bit ∧
      recvOutVal Mv mask aSelf aPeer k bit < Mv := by
  unfold recvOutVal
  cases hc : (aSelf k).toNat.testBit bit
  · simp only [Bool.false_eq_true, if_false]
    exact ⟨hm0, hm1⟩
  · simp only [if_true]
    exact ⟨Int.emod_nonneg _ (by omega), Int.emod_lt_of_pos _ hM⟩

theorem recvOutVal_modEq (Mv : Int) (mask : Nat → Nat → Int)
    (aSelf aPeer : Nat → Int) (k bit : Nat) :
    recvOutVal Mv mask aSelf aPeer k bit ≡
      mask k bit +
        (if (aSelf k).toNat.testBit bit then aPeer k * 2 ^ bit else 0) [ZMOD Mv] := by
  unfold recvOutVal
  cases hc : (aSelf k).toNat.testBit bit
  · simp only [Bool.false_eq_true, if_false]
    exact (Int.ModEq.refl _).trans (by rw [add_zero])
  · simp only [if_true]
    calc (mask k bit + aPeer k * 2 ^ bit % Mv) % Mv
        ≡ mask k bit + aPeer k * 2 ^ bit % Mv [ZMOD Mv] := emod_self_modEq _ _
      _ ≡ mask k bit + aPeer k * 2 ^ bit [ZMOD Mv] :=
          (emod_self_modEq _ _).add_left _

theorem sum_testBit_mul : ∀ (w : Nat) (y : Int) (m : Nat), m < 2 ^ w →
    (∑ bit ∈ Finset.range w, if m.testBit bit then y * 2 ^ bit else 0) = y * (m : Int) := by
  intro w
  induction w with
  | zero =>
      intro y m hm
      interval_cases m
      simp
  | succ w ih =>
      intro y m hm
      rw [Finset.sum_range_succ']
      have hdiv : m / 2 < 2 ^ w := by
        have h2 : 2 ^ (w + 1) = 2 ^ w * 2 := by rw [Nat.pow_succ]
        omega
      have hterm : ∀ bit, (if m.testBit (bit + 1) then y * 2 ^ (bit + 1) else 0) =
          (if (m / 2).testBit bit then (2 * y) * 2 ^ bit else 0) := by
        intro bit
        rw [Nat.testBit_succ]
        split
        · ring
        · rfl
      rw [Finset.sum_congr rfl (fun bit _ => hterm bit), ih (2 * y) (m / 2) hdiv]
      have hmv : (m : Int) = 2 * ((m / 2 : Nat) : Int) + ((m % 2 : Nat) : Int) := by
        have h3 : 2 * (m / 2) + m % 2 = m := by omega
        exact_mod_cast (congrArg (Nat.cast : Nat → Int) h3).symm
      have hmod : m.testBit 0 = decide (m % 2 = 1) := Nat.testBit_zero m
      rw [hmod, hmv]
      rcases Nat.mod_two_eq_zero_or_one m with h2 | h2
      · rw [h2]; simp; ring
      · rw [h2]; simp; ring

theorem sum_pairs_swap (g : Nat → Nat → Int) : ∀ P : Nat,
    (∑ p ∈ Finset.range P, ∑ i ∈ Finset.range p, g i p) =
      ∑ p ∈ Finset.range P, ∑ i ∈ Finset.Ico (p + 1) P, g p i := by
  intro P
  induction P with
  | zero => simp
  | succ P ih =>
      rw [Finset.sum_range_succ, ih, Finset.sum_range_succ
        (fun p => ∑ i ∈ Finset.Ico (p + 1) (P + 1), g p i) P]
      have hlast : (∑ i ∈ Finset.Ico (P + 1) (P + 1), g P i) = 0 := by
        rw [Finset.Ico_self, Finset.sum_empty]
      have hsplit : (∑ p ∈ Finset.range P, ∑ i ∈ Finset.Ico (p + 1) (P + 1), g p i) =
          ∑ p ∈ Finset.range P, ((∑ i ∈ Finset.Ico (p + 1) P, g p i) + g p P) := by
        refine Finset.sum_congr rfl ?_
        intro p hp
        rw [Finset.sum_Ico_succ_top (by
          have := Finset.mem_range.mp hp
          omega)]
      rw [hlast, hsplit, Finset.sum_add_distrib]
      ring

theorem sum_sq_expansion (f : Nat → Int) : ∀ P : Nat,
    (∑ p ∈ Finset.range P, f p) * (∑ p ∈ Finset.range P, f p) =
      (∑ p ∈ Finset.range P, f p * f p) +
        2 * ∑ p ∈ Finset.range P, ∑ i ∈ Finset.Ico (p + 1) P, f p * f i := by
  intro P
  induction P with
  | zero => simp
  | succ P ih =>
      rw [Finset.sum_range_succ f, Finset.sum_range_succ (fun p => f p * f p),
        Finset.sum_range_succ (fun p => ∑ i ∈ Finset.Ico (p + 1) (P + 1), f p * f i)]
      have hlast : (∑ i ∈ Finset.Ico (P + 1) (P + 1), f P * f i) = 0 := by
        rw [Finset.Ico_self, Finset.sum_empty]
      have hsplit : (∑ p ∈ Finset.range P, ∑ i ∈ Finset.Ico (p + 1) (P + 1), f p * f i) =
          ∑ p ∈ Finset.range P, ((∑ i ∈ Finset.Ico (p + 1) P, f p * f i) + f p * f P) := by
        refine Finset.sum_congr rfl ?_
        intro p hp
        rw [Finset.sum_Ico_succ_top (by
          have := Finset.mem_range.mp hp
          omega)]
      rw [hlast, hsplit, Finset.sum_add_distrib]
      have hmul : (∑ p ∈ Finset.range P, f p) * f P =
          ∑ p ∈ Finset.range P, f p * f P := Finset.sum_mul _ _ _
      nlinarith [ih, hmul]

theorem parseHelperSend_contract_modEq (w B n k : Nat) (maskv : Nat → Nat → Int)
    (c : Nat → Int) (hB : 0 < B) (hk : k < n)
    (hm : ∀ bit < w, 0 ≤ maskv k bit ∧ maskv k bit < 2 ^ w) :
    (ParseHelperSend ((2 : Int) ^ w) w B (senderOutsFromContract w B n maskv) c n).1 k ≡
      c k - 2 * ∑ bit ∈ Finset.range w, maskv k bit [ZMOD ((2 : Int) ^ w)] := by
  have hlen : numBatches B 0 n ≤ (senderOutsFromContract w B n maskv).length := by
    unfold senderOutsFromContract
    rw [batchedPositions_length w B _ n 0 n (by omega)]
  unfold ParseHelperSend
  have happly := parseHelperCore_fst_apply w B (subStep ((2 : Int) ^ w)) n 0 n
    (senderOutsFromContract w B n maskv) c k (by omega) hB hlen (by omega) hk
  rw [Nat.sub_zero] at happly
  rw [happly]
  have hpt : ∀ bit, bit < w →
      interpLE w (((senderOutsFromContract w B n maskv).getD (k / B) []).getD
        ((k % B) * w + bit) []) = maskv k bit := by
    intro bit hbit
    unfold senderOutsFromContract
    have hget := batchedPositions_get w B
      (fun j bitj => natToBitsLE w (maskv j bitj).toNat) n 0 n k bit [] (by omega) hB
      (by omega) hk hbit
    rw [Nat.sub_zero] at hget
    rw [hget]
    exact interpLE_toNat_int w (maskv k bit) (hm bit hbit).1 (hm bit hbit).2
  rw [foldBits_congr (subStep ((2 : Int) ^ w)) (c k) w _ _ hpt]
  exact foldBits_sub_modEq _ _ _ w

theorem parseHelperReceive_contract_modEq (w B n k : Nat) (maskv : Nat → Nat → Int)
    (aSelf aPeer : Nat → Int) (c : Nat → Int) (hB : 0 < B) (hk : k < n)
    (hm : ∀ bit < w, 0 ≤ maskv k bit ∧ maskv k bit < 2 ^ w) :
    (ParseHelperReceive ((2 : Int) ^ w) w B
        (recvOutsFromContract ((2 : Int) ^ w) w B n maskv aSelf aPeer) c n).1 k ≡
      c k + 2 * ∑ bit ∈ Finset.range w,
        recvOutVal ((2 : Int) ^ w) maskv aSelf aPeer k bit [ZMOD ((2 : Int) ^ w)] := by
  have hM : (0 : Int) < 2 ^ w := by positivity
  have hlen : numBatches B 0 n ≤
      (recvOutsFromContract ((2 : Int) ^ w) w B n maskv aSelf aPeer).length := by
    unfold recvOutsFromContract
    rw [batchedPositions_length w B _ n 0 n (by omega)]
  unfold ParseHelperReceive
  have happly := parseHelperCore_fst_apply w B (addStep ((2 : Int) ^ w)) n 0 n
    (recvOutsFromContract ((2 : Int) ^ w) w B n maskv aSelf aPeer) c k
    (by omega) hB hlen (by omega) hk
  rw [Nat.sub_zero] at happly
  rw [happly]
  have hpt : ∀ bit, bit < w →
      interpLE w (((recvOutsFromContract ((2 : Int) ^ w) w B n maskv aSelf aPeer).getD
        (k / B) []).getD ((k % B) * w + bit) []) =
        recvOutVal ((2 : Int) ^ w) maskv aSelf aPeer k bit := by
    intro bit hbit
    unfold recvOutsFromContract
    have hget := batchedPositions_get w B
      (fun j bitj => natToBitsLE w (recvOutVal ((2 : Int) ^ w) maskv aSelf aPeer j bitj).toNat)
      n 0 n k bit [] (by omega) hB (by omega) hk hbit
    rw [Nat.sub_zero] at hget
    rw [hget]
    have hrange := recvOutVal_nonneg_lt ((2 : Int) ^ w) maskv aSelf aPeer k bit hM
      (hm bit hbit).1 (hm bit hbit).2
    exact interpLE_toNat_int w _ hrange.1 hrange.2
  rw [foldBits_congr (addStep ((2 : Int) ^ w)) (c k) w _ _ hpt]
  exact foldBits_add_modEq _ _ _ w

theorem setupPartyC_modEq (P w B n : Nat) (a : Nat → Nat → Int)
    (mask : Nat → Nat → Nat → Nat → Int) (k p : Nat)
    (hB : 0 < B) (hk : k < n) (hp : p < P)
    (hm : ∀ hi, hi < P → ∀ lo, lo < hi → ∀ bit, bit < w →
      0 ≤ mask lo hi k bit ∧ mask lo hi k bit < 2 ^ w) :
    setupPartyC P w B n a mask p k ≡
      a p k * a p k + ∑ i ∈ Finset.range P,
        (if i < p then -(2 * ∑ bit ∈ Finset.range w, mask i p k bit)
         else if p < i then
           2 * ∑ bit ∈ Finset.range w,
             recvOutVal ((2 : Int) ^ w) (mask p i) (a p) (a i) k bit
         else 0) [ZMOD ((2 : Int) ^ w)] := by
  unfold setupPartyC ParseOutputsWidth
  have hstep : ∀ (c' : Nat → Int) (i : Nat), i ∈ List.range P →
      parsePeerStep p ((2 : Int) ^ w) w B n
        (fun i => senderOutsFromContract w B n (mask i p))
        (fun i => recvOutsFromContract ((2 : Int) ^ w) w B n (mask p i) (a p) (a i)) c' i k ≡
      c' k + (if i < p then -(2 * ∑ bit ∈ Finset.range w, mask i p k bit)
         else if p < i then
           2 * ∑ bit ∈ Finset.range w,
             recvOutVal ((2 : Int) ^ w) (mask p i) (a p) (a i) k bit
         else 0) [ZMOD ((2 : Int) ^ w)] := by
    intro c' i hi
    have hiP := List.mem_range.mp hi
    unfold parsePeerStep
    by_cases hip : i = p
    · subst hip
      rw [if_pos rfl, if_neg (lt_irrefl i), if_neg (lt_irrefl i)]
      simp
    · rw [if_neg hip]
      by_cases hlt : i < p
      · rw [if_pos hlt, if_pos hlt]
        have h := parseHelperSend_contract_modEq w B n k (mask i p) c' hB hk
          (fun bit hbit => hm p hp i hlt bit hbit)
        refine h.trans ?_
        rw [sub_eq_add_neg]
      · have hgt : p < i := by omega
        rw [if_neg hlt, if_neg hlt, if_pos hgt]
        exact parseHelperReceive_contract_modEq w B n k (mask p i) (a p) (a i) c' hB hk
          (fun bit hbit => hm i hiP p hgt bit hbit)
  have hfold := foldl_peers_modEq ((2 : Int) ^ w) k
    (fun i => if i < p then -(2 * ∑ bit ∈ Finset.range w, mask i p k bit)
       else if p < i then
         2 * ∑ bit ∈ Finset.range w,
           recvOutVal ((2 : Int) ^ w) (mask p i) (a p) (a i) k bit
       else 0)
    (parsePeerStep p ((2 : Int) ^ w) w B n
      (fun i => senderOutsFromContract w B n (mask i p))
      (fun i => recvOutsFromContract ((2 : Int) ^ w) w B n (mask p i) (a p) (a i)))
    (List.range P) (GenerateRandomPairsC ((2 : Int) ^ w) (a p)) hstep
  refine hfold.trans ?_
  rw [list_map_range_sum]
  exact (emod_self_modEq (a p k * a p k) ((2 : Int) ^ w)).add_right _

/-- C1: assuming the OT layer meets its additive-correlated-OT contract,
after `Setup` on all parties the per-width shares reconstruct square
pairs: for every width `W ∈ {8,16,32,64,128}` and every SP index
`i < n_W`, the party shares of `a` sum to some `A_i` mod `2^W` and the
party shares of `c` sum to `A_i · A_i` mod `2^W`. -/
theorem sp_sum_invariant (P w B n : Nat) (a : Nat → Nat → Int)
    (mask : Nat → Nat → Nat → Nat → Int) (k : Nat)
    (_hw : w ∈ [8, 16, 32, 64, 128]) (hB : 0 < B) (hk : k < n)
    (ha : ∀ p, p < P → ∀ j, j < n → 0 ≤ a p j ∧ a p j < 2 ^ w)
    (hm : ∀ hi, hi < P → ∀ lo, lo < hi → ∀ j, j < n → ∀ bit, bit < w →
      0 ≤ mask lo hi j bit ∧ mask lo hi j bit < 2 ^ w) :
    (∑ p ∈ Finset.range P, setupPartyC P w B n a mask p k) % (2 : Int) ^ w =
      (((∑ p ∈ Finset.range P, a p k) % (2 : Int) ^ w) *
        ((∑ p ∈ Finset.range P, a p k) % (2 : Int) ^ w)) % (2 : Int) ^ w := by
  have hparty : ∀ p ∈ Finset.range P,
      setupPartyC P w B n a mask p k ≡
        a p k * a p k + ∑ i ∈ Finset.range P,
          (if i < p then -(2 * ∑ bit ∈ Finset.range w, mask i p k bit)
           else if p < i then
             2 * ∑ bit ∈ Finset.range w,
               recvOutVal ((2 : Int) ^ w) (mask p i) (a p) (a i) k bit
           else 0) [ZMOD ((2 : Int) ^ w)] := by
    intro p hp
    exact setupPartyC_modEq P w B n a mask k p hB hk (Finset.mem_range.mp hp)
      (fun hi hhi lo hlo bit hbit => hm hi hhi lo hlo k hk bit hbit)
  have h1 := sum_int_modEq ((2 : Int) ^ w) (Finset.range P) _ _ hparty
  have hD : ∀ p ∈ Finset.range P,
      (∑ i ∈ Finset.range P,
        (if i < p then -(2 * ∑ bit ∈ Finset.range w, mask i p k bit)
         else if p < i then
           2 * ∑ bit ∈ Finset.range w,
             recvOutVal ((2 : Int) ^ w) (mask p i) (a p) (a i) k bit
         else 0)) =
      (∑ i ∈ Finset.range p, -(2 * ∑ bit ∈ Finset.range w, mask i p k bit)) +
        ∑ i ∈ Finset.Ico (p + 1) P,
          2 * ∑ bit ∈ Finset.range w,
            recvOutVal ((2 : Int) ^ w) (mask p i) (a p) (a i) k bit := by
    intro p hp
    have hpP := Finset.mem_range.mp hp
    nth_rewrite 1 [Finset.range_eq_Ico]
    rw [← Finset.sum_Ico_consecutive _ (Nat.zero_le p) (le_of_lt hpP),
      Finset.sum_eq_sum_Ico_succ_bot hpP]
    have e1 : (∑ i ∈ Finset.Ico 0 p,
        (if i < p then -(2 * ∑ bit ∈ Finset.range w, mask i p k bit)
         else if p < i then
           2 * ∑ bit ∈ Finset.range w,
             recvOutVal ((2 : Int) ^ w) (mask p i) (a p) (a i) k bit
         else 0)) =
        ∑ i ∈ Finset.Ico 0 p, -(2 * ∑ bit ∈ Finset.range w, mask i p k bit) := by
      refine Finset.sum_congr rfl ?_
      intro i hi
      rw [if_pos (Finset.mem_Ico.mp hi).2]
    have e2 : (if p < p then -(2 * ∑ bit ∈ Finset.range w, mask p p k bit)
        else if p < p then
          2 * ∑ bit ∈ Finset.range w,
            recvOutVal ((2 : Int) ^ w) (mask p p) (a p) (a p) k bit
        else 0) = 0 := by
      rw [if_neg (lt_irrefl p), if_neg (lt_irrefl p)]
    have e3 : (∑ i ∈ Finset.Ico (p + 1) P,
        (if i < p then -(2 * ∑ bit ∈ Finset.range w, mask i p k bit)
         else if p < i then
           2 * ∑ bit ∈ Finset.range w,
             recvOutVal ((2 : Int) ^ w) (mask p i) (a p) (a i) k bit
         else 0)) =
        ∑ i ∈ Finset.Ico (p + 1) P,
          2 * ∑ bit ∈ Finset.range w,
            recvOutVal ((2 : Int) ^ w) (mask p i) (a p) (a i) k bit := by
      refine Finset.sum_congr rfl ?_
      intro i hi
      have hpi := (Finset.mem_Ico.mp hi).1
      rw [if_neg (by omega), if_pos (by omega)]
    rw [e1, e2, e3, zero_add, ← Finset.range_eq_Ico]
  have hrecvSum : ∀ p ∈ Finset.range P, ∀ i ∈ Finset.Ico (p + 1) P,
      (2 * ∑ bit ∈ Finset.range w,
        recvOutVal ((2 : Int) ^ w) (mask p i) (a p) (a i) k bit) ≡
      2 * ((∑ bit ∈ Finset.range w, mask p i k bit) + a i k * a p k)
        [ZMOD ((2 : Int) ^ w)] := by
    intro p hp i hi
    have hpP := Finset.mem_range.mp hp
    obtain ⟨hpi, hiP⟩ := Finset.mem_Ico.mp hi
    have hsum : (∑ bit ∈ Finset.range w,
        recvOutVal ((2 : Int) ^ w) (mask p i) (a p) (a i) k bit) ≡
        ∑ bit ∈ Finset.range w, (mask p i k bit +
          (if (a p k).toNat.testBit bit then a i k * 2 ^ bit else 0))
        [ZMOD ((2 : Int) ^ w)] :=
      sum_int_modEq _ _ _ _ (fun bit _ => recvOutVal_modEq _ _ _ _ _ _)
    have hsplit : (∑ bit ∈ Finset.range w, (mask p i k bit +
        (if (a p k).toNat.testBit bit then a i k * 2 ^ bit else 0))) =
        (∑ bit ∈ Finset.range w, mask p i k bit) +
          ∑ bit ∈ Finset.range w,
            (if (a p k).toNat.testBit bit then a i k * 2 ^ bit else 0) :=
      Finset.sum_add_distrib
    have hak := ha p hpP k hk
    have hlt : (a p k).toNat < 2 ^ w := by
      have hcast : ((2 ^ w : Nat) : Int) = (2 : Int) ^ w := by push_cast; ring
      omega
    have hite : (∑ bit ∈ Finset.range w,
        (if (a p k).toNat.testBit bit then a i k * 2 ^ bit else 0)) = a i k * a p k := by
      rw [sum_testBit_mul w (a i k) (a p k).toNat hlt, Int.toNat_of_nonneg hak.1]
    exact Int.ModEq.mul_left 2 (hsum.trans (by rw [hsplit, hite]))
  have h5 : (∑ p ∈ Finset.range P, ∑ i ∈ Finset.Ico (p + 1) P,
      2 * ∑ bit ∈ Finset.range w,
        recvOutVal ((2 : Int) ^ w) (mask p i) (a p) (a i) k bit) ≡
      ∑ p ∈ Finset.range P, ∑ i ∈ Finset.Ico (p + 1) P,
        2 * ((∑ bit ∈ Finset.range w, mask p i k bit) + a i k * a p k)
      [ZMOD ((2 : Int) ^ w)] :=
    sum_int_modEq _ _ _ _ (fun p hp =>
      sum_int_modEq _ _ _ _ (fun i hi => hrecvSum p hp i hi))
  have halg :
      (∑ p ∈ Finset.range P, a p k * a p k) +
        ((∑ p ∈ Finset.range P, ∑ i ∈ Finset.range p,
            -(2 * ∑ bit ∈ Finset.range w, mask i p k bit)) +
          ∑ p ∈ Finset.range P, ∑ i ∈ Finset.Ico (p + 1) P,
            2 * ((∑ bit ∈ Finset.range w, mask p i k bit) + a i k * a p k)) =
      (∑ p ∈ Finset.range P, a p k) * (∑ p ∈ Finset.range P, a p k) := by
    have hswap := sum_pairs_swap
      (fun l h => ∑ bit ∈ Finset.range w, mask l h k bit) P
    have hsq := sum_sq_expansion (fun q => a q k) P
    have e1 : (∑ p ∈ Finset.range P, ∑ i ∈ Finset.range p,
        -(2 * ∑ bit ∈ Finset.range w, mask i p k bit)) =
        -(2 * ∑ p ∈ Finset.range P, ∑ i ∈ Finset.range p,
          ∑ bit ∈ Finset.range w, mask i p k bit) := by
      rw [Finset.mul_sum]
      rw [← Finset.sum_neg_distrib]
      refine Finset.sum_congr rfl ?_
      intro p _
      rw [Finset.mul_sum, ← Finset.sum_neg_distrib]
    have e2 : (∑ p ∈ Finset.range P, ∑ i ∈ Finset.Ico (p + 1) P,
        2 * ((∑ bit ∈ Finset.range w, mask p i k bit) + a i k * a p k)) =
        (2 * ∑ p ∈ Finset.range P, ∑ i ∈ Finset.Ico (p + 1) P,
          ∑ bit ∈ Finset.range w, mask p i k bit) +
        2 * ∑ p ∈ Finset.range P, ∑ i ∈ Finset.Ico (p + 1) P, a i k * a p k := by
      rw [Finset.mul_sum, Finset.mul_sum, ← Finset.sum_add_distrib]
      refine Finset.sum_congr rfl ?_
      intro p _
      rw [Finset.mul_sum, Finset.mul_sum, ← Finset.sum_add_distrib]
      refine Finset.sum_congr rfl ?_
      intro i _
      ring
    have e3 : (∑ p ∈ Finset.range P, ∑ i ∈ Finset.Ico (p + 1) P, a i k * a p k) =
        ∑ p ∈ Finset.range P, ∑ i ∈ Finset.Ico (p + 1) P, a p k * a i k := by
      refine Finset.sum_congr rfl ?_
      intro p _
      refine Finset.sum_congr rfl ?_
      intro i _
      ring
    rw [e1, e2, e3]
    have hswap' : (∑ p ∈ Finset.range P, ∑ i ∈ Finset.range p,
        ∑ bit ∈ Finset.range w, mask i p k bit) =
        ∑ p ∈ Finset.range P, ∑ i ∈ Finset.Ico (p + 1) P,
          ∑ bit ∈ Finset.range w, mask p i k bit := hswap
    rw [hswap']
    linarith [hsq]
  calc (∑ p ∈ Finset.range P, setupPartyC P w B n a mask p k)
      ≡ ∑ p ∈ Finset.range P, (a p k * a p k + ∑ i ∈ Finset.range P,
          (if i < p then -(2 * ∑ bit ∈ Finset.range w, mask i p k bit)
           else if p < i then
             2 * ∑ bit ∈ Finset.range w,
               recvOutVal ((2 : Int) ^ w) (mask p i) (a p) (a i) k bit
           else 0)) [ZMOD ((2 : Int) ^ w)] := h1
    _ = (∑ p ∈ Finset.range P, a p k * a p k) +
          ∑ p ∈ Finset.range P, (∑ i ∈ Finset.range P,
            (if i < p then -(2 * ∑ bit ∈ Finset.range w, mask i p k bit)
             else if p < i then
               2 * ∑ bit ∈ Finset.range w,
                 recvOutVal ((2 : Int) ^ w) (mask p i) (a p) (a i) k bit
             else 0)) := Finset.sum_add_distrib
    _ = (∑ p ∈ Finset.range P, a p k * a p k) +
          ((∑ p ∈ Finset.range P, ∑ i ∈ Finset.range p,
              -(2 * ∑ bit ∈ Finset.range w, mask i p k bit)) +
            ∑ p ∈ Finset.range P, ∑ i ∈ Finset.Ico (p + 1) P,
              2 * ∑ bit ∈ Finset.range w,
                recvOutVal ((2 : Int) ^ w) (mask p i) (a p) (a i) k bit) := by
          rw [Finset.sum_congr rfl hD, Finset.sum_add_distrib]
    _ ≡ (∑ p ∈ Finset.range P, a p k * a p k) +
          ((∑ p ∈ Finset.range P, ∑ i ∈ Finset.range p,
              -(2 * ∑ bit ∈ Finset.range w, mask i p k bit)) +
            ∑ p ∈ Finset.range P, ∑ i ∈ Finset.Ico (p + 1) P,
              2 * ((∑ bit ∈ Finset.range w, mask p i k bit) + a i k * a p k))
          [ZMOD ((2 : Int) ^ w)] := ((h5.add_left _).add_left _)
    _ = (∑ p ∈ Finset.range P, a p k) * (∑ p ∈ Finset.range P, a p k) := halg
    _ ≡ ((∑ p ∈ Finset.range P, a p k) % (2 : Int) ^ w) *
          ((∑ p ∈ Finset.range P, a p k) % (2 : Int) ^ w) [ZMOD ((2 : Int) ^ w)] :=
        ((emod_self_modEq _ _).mul (emod_self_modEq _ _)).symm

/-- C1 witness: two parties, width 8, one SP, all-zero masks, both `a`
shares equal to 1: the `c` shares sum to 4 = (1+1)² mod 256. -/
theorem sp_sum_invariant_witness :
    (∑ p ∈ Finset.range 2,
        setupPartyC 2 8 1 1 (fun _ _ => 1) (fun _ _ _ _ => 0) p 0) % (2 : Int) ^ 8 =
      (((∑ p ∈ Finset.range 2, (fun _ _ => (1 : Int)) p 0) % (2 : Int) ^ 8) *
        ((∑ p ∈ Finset.range 2, (fun _ _ => (1 : Int)) p 0) % (2 : Int) ^ 8)) %
        (2 : Int) ^ 8 :=
  sp_sum_invariant 2 8 1 1 (fun _ _ => 1) (fun _ _ _ _ => 0) 0
    (by decide) (by decide) (by decide)
    (by intro p _ j _; constructor <;> norm_num)
    (by intro hi _ lo _ j _ bit _; constructor <;> norm_num)

/-- C2 witness: two parties, one width-8 SP: party 1 (the higher id)
registers the sender handles toward peer 0 and none on the receiver
side. -/
theorem register_ots_roles_witness :
    (1 < 0 → (RegisterOts 2 1 1 (fiveWidthReqs ⟨1, 0, 0, 0, 0⟩
        (fun _ => 0) (fun _ => 0) (fun _ => 0) (fun _ => 0) (fun _ => 0))).1 0 = []) ∧
      (0 < 1 → (RegisterOts 2 1 1 (fiveWidthReqs ⟨1, 0, 0, 0, 0⟩
        (fun _ => 0) (fun _ => 0) (fun _ => 0) (fun _ => 0) (fun _ => 0))).2 0 = []) ∧
      (0 < 1 → (RegisterOts 2 1 1 (fiveWidthReqs ⟨1, 0, 0, 0, 0⟩
        (fun _ => 0) (fun _ => 0) (fun _ => 0) (fun _ => 0) (fun _ => 0))).1 0 =
          RegisterOtsSenderFor 1 (fiveWidthReqs ⟨1, 0, 0, 0, 0⟩
            (fun _ => 0) (fun _ => 0) (fun _ => 0) (fun _ => 0) (fun _ => 0))) ∧
      (1 < 0 → (RegisterOts 2 1 1 (fiveWidthReqs ⟨1, 0, 0, 0, 0⟩
        (fun _ => 0) (fun _ => 0) (fun _ => 0) (fun _ => 0) (fun _ => 0))).2 0 =
          RegisterOtsReceiverFor 1 (fiveWidthReqs ⟨1, 0, 0, 0, 0⟩
            (fun _ => 0) (fun _ => 0) (fun _ => 0) (fun _ => 0) (fun _ => 0))) ∧
      ((∃ r ∈ fiveWidthReqs ⟨1, 0, 0, 0, 0⟩
          (fun _ => 0) (fun _ => 0) (fun _ => 0) (fun _ => 0) (fun _ => 0), 0 < r.n) →
        0 < 1 → (RegisterOts 2 1 1 (fiveWidthReqs ⟨1, 0, 0, 0, 0⟩
          (fun _ => 0) (fun _ => 0) (fun _ => 0) (fun _ => 0) (fun _ => 0))).1 0 ≠ []) ∧
      ((∃ r ∈ fiveWidthReqs ⟨1, 0, 0, 0, 0⟩
          (fun _ => 0) (fun _ => 0) (fun _ => 0) (fun _ => 0) (fun _ => 0), 0 < r.n) →
        1 < 0 → (RegisterOts 2 1 1 (fiveWidthReqs ⟨1, 0, 0, 0, 0⟩
          (fun _ => 0) (fun _ => 0) (fun _ => 0) (fun _ => 0) (fun _ => 0))).2 0 ≠ []) :=
  register_ots_roles 2 1 1 0 (fiveWidthReqs ⟨1, 0, 0, 0, 0⟩
      (fun _ => 0) (fun _ => 0) (fun _ => 0) (fun _ => 0) (fun _ => 0))
    (by decide) (by decide) (by decide)

end Motion
